import Mathlib

/-!
Verification of the Power-Platform-Solution-Insights core: a shallow
embedding of the bundle ingestion pipeline (`services/zipService.ts`),
the retrying oracle wrapper (`services/geminiService.ts`), the
relationship aggregation of `components/SchemaVisualizer.tsx`, and the
structural diff engine (`App.tsx`, `solutionDiff`), together with proofs
of the specified properties.

JavaScript strings are modelled as Lean `String` (a list of Unicode
code points); JS string comparison is modelled as code-point
lexicographic comparison.
-/

namespace PPSI

/-! ## JavaScript string and collection primitives -/

/-- Code-point lexicographic comparison on character lists,
modelling JS string ordering (`<` by code units). -/
def lexLe : List Char → List Char → Bool
  | [], _ => true
  | _ :: _, [] => false
  | a :: as, b :: bs => if a < b then true else if b < a then false else lexLe as bs

/-- `strLe a b` models `a.localeCompare(b) <= 0` as code-point
lexicographic order. -/
def strLe (a b : String) : Bool := lexLe a.data b.data

/-- Models `sub.isPrefixOf hay`-style `String.prototype.startsWith`. -/
def jsStartsWith (s p : String) : Bool := p.data.isPrefixOf s.data

/-- Models `String.prototype.endsWith`. -/
def jsEndsWith (s p : String) : Bool := p.data.reverse.isPrefixOf s.data.reverse

/-- Substring containment on character lists, for `String.prototype.includes`. -/
def containsSub (hay sub : List Char) : Bool :=
  match hay with
  | [] => sub.isEmpty
  | _ :: t => sub.isPrefixOf hay || containsSub t sub

/-- Models `s.includes(sub)`. -/
def jsIncludes (s sub : String) : Bool := containsSub s.data sub.data

/-- Models `s.substring(n)` / dropping `n` leading characters. -/
def jsDrop (s : String) (n : Nat) : String := ⟨s.data.drop n⟩

/-- Models `s.toLowerCase()` (per-character lowercasing). -/
def jsToLower (s : String) : String := ⟨s.data.map Char.toLower⟩

/-- Split a character list at a separator character, keeping empty groups,
the semantics of `String.prototype.split` with a one-character separator. -/
def splitOnChar (sep : Char) : List Char → List (List Char)
  | [] => [[]]
  | c :: cs =>
    if c = sep then [] :: splitOnChar sep cs
    else
      match splitOnChar sep cs with
      | [] => [[c]]
      | g :: gs => (c :: g) :: gs

/-- Models `s.split(sep)` for a single-character separator. -/
def jsSplit (s : String) (sep : Char) : List String :=
  (splitOnChar sep s.data).map (fun g => ⟨g⟩)

/-- Models `attr || dflt` for a nullable string attribute: `null` and the
empty string are both falsy in JS. -/
def jsOr (o : Option String) (dflt : String) : String :=
  match o with
  | some s => if s = "" then dflt else s
  | none => dflt

/-- Models `attr || undefined`: the empty string collapses to `undefined`. -/
def jsOrUndef (o : Option String) : Option String :=
  match o with
  | some s => if s = "" then none else some s
  | none => none

/-- First-occurrence deduplication, walking the list with the set of
already-seen elements: the semantics of `Array.from(new Set(xs))`
(JS `Set` keeps insertion order, first wins). -/
def jsSetDedupAux (seen : List String) : List String → List String
  | [] => []
  | x :: xs =>
    if x ∈ seen then jsSetDedupAux seen xs
    else x :: jsSetDedupAux (x :: seen) xs

/-- `Array.from(new Set(l))`. -/
def jsSetDedup (l : List String) : List String := jsSetDedupAux [] l

/-- Models `Array.from(new Set([...a, ...b]))`. -/
def jsSetUnion (a b : List String) : List String := jsSetDedup (a ++ b)

/-- Replace the first element satisfying `p` by its image under `f`,
modelling `const x = arr.find(p); if (x) mutate(x)`. -/
def replaceFirst : List α → (α → Bool) → (α → α) → List α
  | [], _, _ => []
  | x :: xs, p, f => if p x then f x :: xs else x :: replaceFirst xs p f

/-- JS line terminators, which `.` in a regular expression does not match. -/
def isLineTerminator (c : Char) : Bool :=
  c = '\n' || c = '\r' || c = '\u2028' || c = '\u2029'

/-- True when the string contains no JS line terminator, so that it can be
consumed by `(.*)$` in a JS regular expression without the `s` flag. -/
def noLineTerminator (s : String) : Bool := !s.data.any isLineTerminator

/-! ## Data model (`types.ts`) -/

/-- The `SolutionFile.type` union. -/
inductive FileType
  | xml | xaml | json | js | css | other
deriving DecidableEq, Repr

/-- `SolutionFile` from `types.ts`. -/
structure SolutionFile where
  name : String
  path : String
  content : String
  type : FileType
deriving DecidableEq, Repr

/-- A security-role privilege record (`SecurityRoleMetadata.privileges`
element). `action` and `entity` are declared optional in `types.ts`. -/
structure Privilege where
  privilegeId : String
  name : String
  level : String
  depth : Option String
  action : Option String
  entity : Option String
deriving DecidableEq, Repr

/-- A table field (`EntityMetadata.fields` element). -/
structure Field where
  name : String
  displayName : String
  type : String
deriving DecidableEq, Repr

/-- The `ComponentType` union from `types.ts`. -/
inductive ComponentType
  | App | ModelApp | Flow | Table | WebResource | EnvVar | Plugin
  | SecurityRole | Sitemap | ConnectionRef | CustomControl | Other
deriving DecidableEq, Repr

/-- The dynamically-typed `LogicalComponent.metadata` payload, restricted to
the shapes the diff engine inspects: security-role metadata (with its
`privileges` array), table metadata (with its `fields` array), and any
other payload (canvas-app or model-app metadata), which has neither a
`privileges` nor a `fields` property. -/
inductive Metadata
  | role (privileges : List Privilege)
  | table (fields : List Field)
  | other
deriving DecidableEq, Repr

/-- `LogicalComponent` from `types.ts`. -/
structure LogicalComponent where
  id : String
  displayName : String
  logicalName : String
  type : ComponentType
  description : Option String
  files : List String
  metadata : Option Metadata
deriving DecidableEq, Repr

/-- `EntityRelationship` from `types.ts`; `from`/`to` are reserved words in
Lean, so the fields are named `fromEntity`/`toEntity`. `type` is kept as a
raw string as in the parser (`textContent as any`). -/
structure EntityRelationship where
  name : String
  type : String
  fromEntity : String
  toEntity : String
deriving DecidableEq, Repr

/-- `EntityMetadata` from `types.ts`. -/
structure EntityMetadata where
  logicalName : String
  displayName : String
  relationships : List EntityRelationship
  fields : List Field
deriving DecidableEq, Repr

/-- `DiffStatus` from `types.ts`. -/
inductive DiffStatus
  | added | removed | modified | unchanged
deriving DecidableEq, Repr

/-- A `modified` entry of a security-role logical diff
(`{ name, old, new }` built in `App.tsx`). -/
structure ModifiedPriv where
  name : String
  old : Option Privilege
  new : Privilege
deriving DecidableEq, Repr

/-- The table-kind logical diff payload (`{ type: 'Table', added, removed }`
built in `App.tsx`). -/
structure TableDiffData where
  added : List Field
  removed : List Field
deriving DecidableEq, Repr

/-- The security-role-kind logical diff payload
(`{ type: 'SecurityRole', added, removed, modified }` built in `App.tsx`). -/
structure RoleDiffData where
  added : List Privilege
  removed : List Privilege
  modified : List ModifiedPriv
deriving DecidableEq, Repr

/-- The `LogicalDiff` payload, tagged by component kind as built by
`solutionDiff` in `App.tsx`. -/
inductive LogicalDiff
  | table (d : TableDiffData)
  | role (d : RoleDiffData)
deriving DecidableEq, Repr

/-- `FileDiff` from `types.ts` (the component-metadata attachments are not
needed by the verified properties and are omitted). -/
structure FileDiff where
  path : String
  name : String
  status : DiffStatus
  oldContent : Option String
  newContent : Option String
  type : FileType
  logicalDiff : Option LogicalDiff
deriving DecidableEq, Repr

/-! ## Archive reader (`zipService.ts`, step 1) -/

/-- `relativePath.split('.').pop()?.toLowerCase() || ''`. -/
def extOf (path : String) : String :=
  jsOr (some (jsToLower ((jsSplit path '.').getLastD ""))) ""

/-- The extension-to-type classification chain of `parseSolutionZip`. -/
def fileTypeOf (path : String) : FileType :=
  if extOf path = "xml" then .xml
  else if extOf path = "xaml" then .xaml
  else if extOf path = "json" then .json
  else if extOf path = "js" then .js
  else if extOf path = "css" then .css
  else .other

/-- Stored content of a zip entry: entries are read with
`zipEntry.async(relativePath.endsWith('.msapp') ? 'uint8array' : 'string')`
and stored as `typeof content === 'string' ? content : '[Binary Content]'`;
`text` is the entry's content decoded as text. -/
def entryContent (path text : String) : String :=
  if jsEndsWith path ".msapp" then "[Binary Content]" else text

/-- `zipEntry.name.split('/').pop() || ''`. -/
def entryName (path : String) : String :=
  jsOr (some ((jsSplit path '/').getLastD "")) ""

/-- The file-collection pass of `parseSolutionZip`: each non-directory zip
entry, given as a `(path, decoded text)` pair, becomes a `SolutionFile`. -/
def readEntries (entries : List (String × String)) : List SolutionFile :=
  entries.map (fun e =>
    { name := entryName e.1
      path := e.1
      content := entryContent e.1 e.2
      type := fileTypeOf e.1 })

/-! ## Security-role privilege parsing (`zipService.ts`, roles section) -/

/-- The action vocabulary of the privilege-name pattern
`/^prv(Create|Read|Write|Delete|AppendTo|Append|Assign|Share)(.*)$/`,
in the regular expression's alternation order. -/
def actionList : List String :=
  ["Create", "Read", "Write", "Delete", "AppendTo", "Append", "Assign", "Share"]

/-- One alternation branch of the privilege-name regular expression: the
name must start with `prv` followed by the action, and the remainder must
be matchable by `(.*)$`, i.e. free of line terminators. -/
def privBranch (name a : String) : Option (String × String) :=
  if jsStartsWith name ("prv" ++ a) then
    let rest := jsDrop name (3 + a.length)
    if noLineTerminator rest then some (a, rest) else none
  else none

/-- `privName.match(/^prv(Create|…|Share)(.*)$/)`, returning the captured
action and remainder: alternatives are tried in order. -/
def matchPriv (name : String) : Option (String × String) :=
  actionList.findSome? (privBranch name)

/-- The raw attributes of one `RolePrivilege` element. -/
structure RawPrivilege where
  name : String
  privilegeid : Option String
  level : Option String
  depth : Option String
deriving DecidableEq, Repr

/-- The action/entity pair computed for one privilege name by the
`RolePrivileges` loop of `parseSolutionZip`: on a regex match the action is
the captured group and the entity is the remainder (or the `Global System`
sentinel when the remainder is empty); otherwise the action stays unset and
the entity is the name with any `prv` prefix stripped. -/
def privAE (privName : String) : Option String × String :=
  match matchPriv privName with
  | some (a, rest) => (some a, if rest = "" then "Global System" else rest)
  | none =>
    if jsStartsWith privName "prv" then (none, jsDrop privName 3)
    else (none, privName)

/-- The privilege record pushed for one `RolePrivilege` element. -/
def parsePrivilege (p : RawPrivilege) : Privilege :=
  { privilegeId := jsOr p.privilegeid p.name
    name := p.name
    level := jsOr p.level ""
    depth := jsOrUndef p.depth
    action := (privAE p.name).1
    entity := some (privAE p.name).2 }

/-- The privileges array of one parsed security role. -/
def parseRolePrivileges (ps : List RawPrivilege) : List Privilege :=
  ps.map parsePrivilege

/-! ## Component reconciliation (`zipService.ts`) -/

/-- The merge applied when the security-role pass finds an existing
component (`existing.displayName = name; existing.metadata = roleMeta`). -/
def mergeRole (c : LogicalComponent) (name : String) (privs : List Privilege) :
    LogicalComponent :=
  { c with displayName := name, metadata := some (.role privs) }

/-- The find-existing-or-create step of the security-role pass. -/
def upsertRole (comps : List LogicalComponent) (id name : String)
    (privs : List Privilege) : List LogicalComponent :=
  if comps.any (fun c => decide (c.id = id) && decide (c.type = .SecurityRole)) then
    replaceFirst comps (fun c => decide (c.id = id) && decide (c.type = .SecurityRole))
      (fun c => mergeRole c name privs)
  else
    comps ++ [{ id := id, displayName := name, logicalName := name,
                type := .SecurityRole, description := none, files := [],
                metadata := some (.role privs) }]

/-- The merge applied when the table pass finds an existing component
(`existing.displayName = displayName; existing.metadata = { fields:
entity.fields }`) — it touches neither `files` nor `type`. -/
def mergeTable (c : LogicalComponent) (displayName : String)
    (fields : List Field) : LogicalComponent :=
  { c with displayName := displayName, metadata := some (.table fields) }

/-- The merge applied when the model-driven-app pass finds an existing
component (`existing.displayName = localizedName; existing.metadata =
modelMeta`) — it touches neither `files` nor `type`; model-app metadata
carries neither privileges nor fields, so it is an `other` payload. -/
def mergeModelApp (c : LogicalComponent) (localizedName : String)
    (meta : Metadata) : LogicalComponent :=
  { c with displayName := localizedName, metadata := some meta }

/-- The merge applied when the workflow pass finds an existing component:
`existing.displayName = name; existing.files = Array.from(new Set([...existing.files, ...newFiles]))`. -/
def mergeFlow (c : LogicalComponent) (name : String) (newFiles : List String) :
    LogicalComponent :=
  { c with displayName := name, files := jsSetUnion c.files newFiles }

/-- File paths associated on the create branch of the workflow pass:
`files.filter(f => f.path.includes(fileName) || f.path.includes(id))`. -/
def flowFilesCreate (files : List SolutionFile) (fileName id : String) :
    List String :=
  (files.filter (fun f => jsIncludes f.path fileName || jsIncludes f.path id)).map
    (fun f => f.path)

/-- File paths unioned on the merge branch of the workflow pass:
`files.filter(f => f.path.includes(fileName))`. -/
def flowFilesMerge (files : List SolutionFile) (fileName : String) :
    List String :=
  (files.filter (fun f => jsIncludes f.path fileName)).map (fun f => f.path)

/-- The find-existing-or-create step of the workflow (cloud flow) pass;
`wid` is the `WorkflowId`, `fileName` the `JsonFileName`/`XamlFileName`. -/
def upsertFlow (comps : List LogicalComponent) (files : List SolutionFile)
    (name wid fileName desc : String) : List LogicalComponent :=
  let nf := if jsStartsWith fileName "/" then jsDrop fileName 1 else fileName
  if comps.any (fun c => decide (c.id = wid)) then
    replaceFirst comps (fun c => decide (c.id = wid))
      (fun c => mergeFlow c name (flowFilesMerge files nf))
  else
    comps ++ [{ id := wid, displayName := name, logicalName := wid,
                type := .Flow, description := some desc,
                files := flowFilesCreate files nf wid, metadata := none }]

/-- The merge applied when the canvas-app pass finds an existing component
(`existing.type = 'App'; existing.displayName = displayName;
existing.metadata = appMeta`) — note that it does not touch `files`. -/
def mergeCanvas (c : LogicalComponent) (displayName : String) (meta : Metadata) :
    LogicalComponent :=
  { c with type := .App, displayName := displayName, metadata := some meta }

/-- The find-existing-or-create step of the canvas-app pass; `paths` is the
file set `files.filter(f => f.path.includes(name))` computed for the create
branch. -/
def upsertCanvas (comps : List LogicalComponent) (name appId displayName : String)
    (meta : Metadata) (desc : String) (paths : List String) :
    List LogicalComponent :=
  if comps.any (fun c => decide (c.logicalName = name) || decide (c.id = appId)) then
    replaceFirst comps (fun c => decide (c.logicalName = name) || decide (c.id = appId))
      (fun c => mergeCanvas c displayName meta)
  else
    comps ++ [{ id := jsOr (some appId) name, displayName := displayName,
                logicalName := name, type := .App, description := some desc,
                files := paths, metadata := some meta }]

/-- The final deduplication pass
`components.filter((v, i, a) => a.findIndex(t => (t.id === v.id)) === i)`:
an element is kept exactly when no earlier element carries its `id`. -/
def dedupByIdAux (seen : List String) :
    List LogicalComponent → List LogicalComponent
  | [] => []
  | c :: cs =>
    if c.id ∈ seen then dedupByIdAux seen cs
    else c :: dedupByIdAux (c.id :: seen) cs

/-- First-occurrence-wins deduplication of the component list by `id`. -/
def dedupById (a : List LogicalComponent) : List LogicalComponent :=
  dedupByIdAux [] a

/-! ## Relationship parsing and aggregation -/

/-- The raw attributes of one `EntityRelationship` element of the
customization descriptor. -/
structure RelDecl where
  name : Option String
  type : Option String
  referenced : Option String
  referencing : Option String
deriving DecidableEq, Repr

/-- Append a relationship to the relationships list of the entity named
`ename`, when it exists (`entityMap.get(name)?.relationships.push(rel)`). -/
def pushRel (ents : List EntityMetadata) (ename : String)
    (r : EntityRelationship) : List EntityMetadata :=
  replaceFirst ents (fun e => decide (e.logicalName = ename))
    (fun e => { e with relationships := e.relationships ++ [r] })

/-- The relationships section of `parseSolutionZip`: each declared
relationship with nonempty endpoints is attached to both its referenced
(`from`) and referencing (`to`) entity, when present in the entity map. -/
def attachRelationships (ents : List EntityMetadata) (rels : List RelDecl) :
    List EntityMetadata :=
  rels.foldl (fun acc d =>
    let name := jsOr d.name ""
    let ty := jsOr d.type "OneToMany"
    let fromE := jsOr d.referenced ""
    let toE := jsOr d.referencing ""
    if fromE ≠ "" ∧ toE ≠ "" then
      let r : EntityRelationship :=
        { name := name, type := ty, fromEntity := fromE, toEntity := toE }
      pushRel (pushRel acc fromE r) toE r
    else acc) ents

/-- The order-independent dedup key of `SchemaVisualizer.allRelationships`:
`[rel.from, rel.to, rel.name].sort().join('-')`. -/
def relKey (r : EntityRelationship) : String :=
  String.intercalate "-"
    (List.insertionSort (fun a b => strLe a b = true)
      [r.fromEntity, r.toEntity, r.name])

/-- `r` with its endpoints swapped (the same edge declared from the other
participating entity's perspective). -/
def swapRel (r : EntityRelationship) : EntityRelationship :=
  { r with fromEntity := r.toEntity, toEntity := r.fromEntity }

/-- The body of the inner loop of `SchemaVisualizer.allRelationships`:
keep `r` when both endpoints are laid out (i.e. are logical names of
`entities`) and its key is unseen. The accumulator carries the output list
and the seen-key set. -/
def relStep (entities : List EntityMetadata)
    (acc : List EntityRelationship × List String) (r : EntityRelationship) :
    List EntityRelationship × List String :=
  if entities.any (fun e2 => decide (e2.logicalName = r.fromEntity)) &&
     entities.any (fun e2 => decide (e2.logicalName = r.toEntity)) then
    if acc.2.any (fun k => decide (k = relKey r)) then acc
    else (acc.1 ++ [r], acc.2 ++ [relKey r])
  else acc

/-- `SchemaVisualizer.allRelationships`: walk every entity's relationship
list, deduplicating by `relKey`. -/
def allRelationships (entities : List EntityMetadata) : List EntityRelationship :=
  (entities.foldl (fun acc e => e.relationships.foldl (relStep entities) acc)
    (([], []) : List EntityRelationship × List String)).1

/-! ## Oracle retry wrapper (`geminiService.ts`) -/

/-- A JS error surfaced by the SDK; only its message is inspected. -/
structure JsError where
  message : String
deriving DecidableEq, Repr

/-- The outcome of one underlying oracle call. -/
inductive CallOutcome (α : Type)
  | ok (a : α)
  | err (e : JsError)
deriving DecidableEq, Repr

/-- What `executeWithRetry` delivers to its caller: a value, the distinct
`QuotaError`, or the original error re-thrown. -/
inductive RetryResult (α : Type)
  | ok (a : α)
  | quotaError (message : String)
  | err (e : JsError)
deriving DecidableEq, Repr

/-- The quota-exhaustion test of `executeWithRetry`:
`errorMsg.includes('429') || errorMsg.includes('RESOURCE_EXHAUSTED')`. -/
def isQuotaMsg (m : String) : Bool :=
  jsIncludes m "429" || jsIncludes m "RESOURCE_EXHAUSTED"

/-- `GeminiService.executeWithRetry`, with the underlying call modelled as
a function from the attempt index to that attempt's outcome (the delay
between attempts has no observable effect on the result). -/
def executeWithRetry (fn : Nat → CallOutcome α) (retries : Nat)
    (attempt : Nat) : RetryResult α :=
  match fn attempt with
  | .ok a => .ok a
  | .err e =>
    if isQuotaMsg e.message then
      match retries with
      | r + 1 => executeWithRetry fn r (attempt + 1)
      | 0 => .quotaError "API rate limit exceeded."
    else .err e

/-! ## The diff engine (`App.tsx`, `solutionDiff`) -/

/-- JS `Map` built by inserting key-value pairs left to right: an insert on
an existing key overwrites the value in place, a fresh key is appended. -/
def jsMapInsert (acc : List (String × α)) (k : String) (v : α) :
    List (String × α) :=
  if acc.any (fun kv => decide (kv.1 = k)) then
    acc.map (fun kv => if kv.1 = k then (k, v) else kv)
  else acc ++ [(k, v)]

/-- `new Map(l.map(x => [key(x), x]))`. -/
def jsMapOf (key : α → String) (l : List α) : List (String × α) :=
  l.foldl (fun acc x => jsMapInsert acc (key x) x) []

/-- `m.get(k)` on the association-list model of a JS `Map`. -/
def jsGet (m : List (String × α)) (k : String) : Option α :=
  (m.find? (fun kv => decide (kv.1 = k))).map (fun kv => kv.2)

/-- `Array.from(map.values()).find(c => c.files.includes(path))`: the first
component owning the path, in the map's value order. -/
def findOwner (comps : List LogicalComponent) (path : String) :
    Option LogicalComponent :=
  ((jsMapOf (fun c => c.id) comps).map (fun kv => kv.2)).find?
    (fun c => decide (path ∈ c.files))

/-- The file-status classification of `solutionDiff`. -/
def diffStatusOf (base target : Option SolutionFile) : DiffStatus :=
  match base, target with
  | none, some _ => .added
  | some _, none => .removed
  | some b, some t => if b.content ≠ t.content then .modified else .unchanged
  | none, none => .unchanged

/-- `baseComp.metadata?.fields || []`. -/
def tableFields : Option Metadata → List Field
  | some (.table fs) => fs
  | _ => []

/-- `(comp.metadata as SecurityRoleMetadata).privileges || []`: reading
`.privileges` off `undefined` metadata throws in JS, modelled as `none`;
metadata of another shape yields `undefined || [] = []`. -/
def rolePrivsOf : Option Metadata → Option (List Privilege)
  | some (.role ps) => some ps
  | some _ => some []
  | none => none

/-- The table logical diff of `solutionDiff`: fields added and removed by
name. -/
def tableLogicalDiff (oldFields newFields : List Field) : TableDiffData :=
  { added :=
      newFields.filter (fun nf => !oldFields.any (fun o => decide (o.name = nf.name)))
    removed :=
      oldFields.filter (fun o => !newFields.any (fun nf => decide (nf.name = o.name))) }

/-- The security-role logical diff of `solutionDiff`: privileges added and
removed by name, and `modified` for names present on both sides whose
`level` or `depth` differs, pairing the first matching old record with the
new one. -/
def roleLogicalDiff (oldPrivs newPrivs : List Privilege) : RoleDiffData :=
  { added :=
      newPrivs.filter (fun np => !oldPrivs.any (fun op => decide (op.name = np.name)))
    removed :=
      oldPrivs.filter (fun op => !newPrivs.any (fun np => decide (np.name = op.name)))
    modified :=
      (newPrivs.filter (fun np =>
        match oldPrivs.find? (fun o => decide (o.name = np.name)) with
        | some op => decide (op.level ≠ np.level) || decide (op.depth ≠ np.depth)
        | none => false)).map (fun np =>
      { name := np.name
        old := oldPrivs.find? (fun o => decide (o.name = np.name))
        new := np }) }

/-- The logical-diff attachment of `solutionDiff` for one changed path,
from the owning components on each side. The outer `Option` is `none`
exactly when the JS code would throw: both owners are security roles and
one of them has no metadata object. -/
def logicalDiffOf (baseComp targetComp : Option LogicalComponent) :
    Option (Option LogicalDiff) :=
  match baseComp, targetComp with
  | some b, some t =>
    if b.type = .Table ∧ t.type = .Table then
      some (some (.table (tableLogicalDiff (tableFields b.metadata) (tableFields t.metadata))))
    else if b.type = .SecurityRole ∧ t.type = .SecurityRole then
      match rolePrivsOf b.metadata, rolePrivsOf t.metadata with
      | some ops, some nps => some (some (.role (roleLogicalDiff ops nps)))
      | _, _ => none
    else some none
  | _, _ => some none

/-- The `FileDiff` record pushed by `solutionDiff` for one non-unchanged
path; `file` is `(target || base)`. -/
def mkFileDiff (p : String) (s : DiffStatus) (base target : Option SolutionFile)
    (ld : Option LogicalDiff) : FileDiff :=
  let file := match target, base with
    | some t, _ => t
    | none, some b => b
    | none, none => { name := "", path := "", content := "", type := .other }
  { path := p
    name := file.name
    status := s
    oldContent := base.map (fun f => f.content)
    newContent := target.map (fun f => f.content)
    type := file.type
    logicalDiff := ld }

/-- One iteration of the `allPaths.forEach` loop of `solutionDiff`:
`some none` when the path is unchanged (nothing pushed), `some (some d)`
when a diff is pushed, `none` when the role-metadata access throws. -/
def entryFor (bm tm : List (String × SolutionFile))
    (bcs tcs : List LogicalComponent) (p : String) : Option (Option FileDiff) :=
  let base := jsGet bm p
  let target := jsGet tm p
  let s := diffStatusOf base target
  if s = .unchanged then some none
  else
    match logicalDiffOf (findOwner bcs p) (findOwner tcs p) with
    | none => none
    | some ld => some (some (mkFileDiff p s base target ld))

/-- Run the per-path loop over all paths, collecting the pushed diffs and
propagating a thrown exception. -/
def collectDiffs (f : String → Option (Option FileDiff)) :
    List String → Option (List FileDiff)
  | [] => some []
  | p :: ps =>
    match f p with
    | none => none
    | some none => collectDiffs f ps
    | some (some d) => (collectDiffs f ps).map (fun ds => d :: ds)

/-- `Array.from(new Set([...baseFiles.keys(), ...targetFiles.keys()]))`. -/
def allPathsOf (bm tm : List (String × SolutionFile)) : List String :=
  jsSetUnion (bm.map (fun kv => kv.1)) (tm.map (fun kv => kv.1))

/-- `solutionDiff`'s `fileDiffs` computation: classify every path in the
union of both file maps, keep the non-unchanged ones, and sort ascending
by path (`fileDiffs.sort((a, b) => a.path.localeCompare(b.path))`).
`none` models the run throwing on a security-role owner without metadata. -/
def solutionFileDiffs (baseFiles targetFiles : List SolutionFile)
    (bcs tcs : List LogicalComponent) : Option (List FileDiff) :=
  let bm := jsMapOf (fun f => f.path) baseFiles
  let tm := jsMapOf (fun f => f.path) targetFiles
  (collectDiffs (entryFor bm tm bcs tcs) (allPathsOf bm tm)).map
    (List.insertionSort (fun a b => strLe a.path b.path = true))

/-! ## Order lemmas for the path comparison -/

theorem lexLe_total : ∀ as bs : List Char, lexLe as bs = true ∨ lexLe bs as = true := by
  intro as
  induction as with
  | nil => intro bs; left; rfl
  | cons a as ih =>
    intro bs
    cases bs with
    | nil => right; rfl
    | cons b bs =>
      rcases lt_trichotomy a b with h | h | h
      · left; simp [lexLe, h]
      · subst h
        rcases ih bs with h2 | h2
        · left; simp [lexLe, lt_irrefl, h2]
        · right; simp [lexLe, lt_irrefl, h2]
      · right; simp [lexLe, h]

theorem lexLe_trans : ∀ as bs cs : List Char,
    lexLe as bs = true → lexLe bs cs = true → lexLe as cs = true := by
  intro as
  induction as with
  | nil => intro bs cs _ _; rfl
  | cons a as ih =>
    intro bs cs hab hbc
    cases bs with
    | nil => simp [lexLe] at hab
    | cons b bs =>
      cases cs with
      | nil => simp [lexLe] at hbc
      | cons c cs =>
        rcases lt_trichotomy a b with h1 | h1 | h1
        · rcases lt_trichotomy b c with h2 | h2 | h2
          · simp [lexLe, lt_trans h1 h2]
          · subst h2; simp [lexLe, h1]
          · simp [lexLe, h2, lt_asymm h2] at hbc
        · subst h1
          simp only [lexLe, lt_irrefl, if_false] at hab
          rcases lt_trichotomy a c with h2 | h2 | h2
          · simp [lexLe, h2]
          · subst h2
            simp only [lexLe, lt_irrefl, if_false] at hbc ⊢
            exact ih bs cs hab hbc
          · simp [lexLe, h2, lt_asymm h2] at hbc
        · simp [lexLe, h1, lt_asymm h1] at hab

theorem lexLe_antisymm : ∀ as bs : List Char,
    lexLe as bs = true → lexLe bs as = true → as = bs := by
  intro as
  induction as with
  | nil =>
    intro bs _ hba
    cases bs with
    | nil => rfl
    | cons b bs => simp [lexLe] at hba
  | cons a as ih =>
    intro bs hab hba
    cases bs with
    | nil => simp [lexLe] at hab
    | cons b bs =>
      rcases lt_trichotomy a b with h | h | h
      · simp [lexLe, h, lt_asymm h] at hba
      · subst h
        simp only [lexLe, lt_irrefl, if_false] at hab hba
        rw [ih bs hab hba]
      · simp [lexLe, h, lt_asymm h] at hab

theorem strLe_total (a b : String) : strLe a b = true ∨ strLe b a = true :=
  lexLe_total a.data b.data

theorem strLe_trans {a b c : String} (h1 : strLe a b = true) (h2 : strLe b c = true) :
    strLe a c = true :=
  lexLe_trans a.data b.data c.data h1 h2

theorem strLe_antisymm {a b : String} (h1 : strLe a b = true) (h2 : strLe b a = true) :
    a = b :=
  String.ext (lexLe_antisymm a.data b.data h1 h2)

/-! ## Lemmas on the JS `Set` model -/

theorem mem_jsSetDedupAux {x : String} :
    ∀ (l : List String) (seen : List String),
      x ∈ jsSetDedupAux seen l ↔ (x ∈ l ∧ x ∉ seen) := by
  intro l
  induction l with
  | nil => intro seen; simp [jsSetDedupAux]
  | cons y ys ih =>
    intro seen
    rw [jsSetDedupAux]
    by_cases hy : y ∈ seen
    · rw [if_pos hy, ih seen]
      constructor
      · rintro ⟨h1, h2⟩; exact ⟨List.mem_cons.mpr (Or.inr h1), h2⟩
      · rintro ⟨h1, h2⟩
        rcases List.mem_cons.mp h1 with rfl | h3
        · exact absurd hy h2
        · exact ⟨h3, h2⟩
    · rw [if_neg hy]
      by_cases hxy : x = y
      · subst hxy
        simp [hy]
      · rw [List.mem_cons, ih (y :: seen)]
        constructor
        · rintro (rfl | ⟨h1, h2⟩)
          · exact absurd rfl hxy
          · exact ⟨List.mem_cons.mpr (Or.inr h1),
              fun hc => h2 (List.mem_cons.mpr (Or.inr hc))⟩
        · rintro ⟨h1, h2⟩
          rcases List.mem_cons.mp h1 with rfl | h3
          · exact absurd rfl hxy
          · exact Or.inr ⟨h3, fun hc => by
              rcases List.mem_cons.mp hc with h | h
              · exact hxy h
              · exact h2 h⟩

theorem mem_jsSetDedup {x : String} {l : List String} :
    x ∈ jsSetDedup l ↔ x ∈ l := by
  rw [jsSetDedup, mem_jsSetDedupAux]
  simp

theorem nodup_jsSetDedupAux :
    ∀ (l : List String) (seen : List String), (jsSetDedupAux seen l).Nodup := by
  intro l
  induction l with
  | nil => intro seen; simp [jsSetDedupAux]
  | cons y ys ih =>
    intro seen
    rw [jsSetDedupAux]
    by_cases hy : y ∈ seen
    · rw [if_pos hy]; exact ih seen
    · rw [if_neg hy]
      refine List.nodup_cons.mpr ⟨?_, ih (y :: seen)⟩
      intro hmem
      exact ((mem_jsSetDedupAux ys (y :: seen)).mp hmem).2 (List.mem_cons_self y seen)

theorem nodup_jsSetDedup : ∀ l : List String, (jsSetDedup l).Nodup :=
  fun l => nodup_jsSetDedupAux l []

theorem jsSetDedupAux_eq_self :
    ∀ (l : List String) (seen : List String), l.Nodup →
      (∀ x ∈ l, x ∉ seen) → jsSetDedupAux seen l = l := by
  intro l
  induction l with
  | nil => intro seen _ _; rfl
  | cons y ys ih =>
    intro seen hnd hdis
    rw [jsSetDedupAux, if_neg (hdis y (by simp))]
    rw [ih (y :: seen) (List.nodup_cons.mp hnd).2 ?_]
    intro x hx hmem
    rcases List.mem_cons.mp hmem with rfl | h
    · exact (List.nodup_cons.mp hnd).1 hx
    · exact hdis x (List.mem_cons.mpr (Or.inr hx)) h

theorem jsSetDedupAux_all_seen :
    ∀ (b seen : List String), (∀ x ∈ b, x ∈ seen) →
      jsSetDedupAux seen b = [] := by
  intro b
  induction b with
  | nil => intro seen _; rfl
  | cons z zs ih =>
    intro seen hb
    rw [jsSetDedupAux, if_pos (hb z (by simp))]
    exact ih seen (fun x hx => hb x (List.mem_cons.mpr (Or.inr hx)))

theorem jsSetDedupAux_append_drop :
    ∀ (l : List String) (seen b : List String),
      (∀ x ∈ b, x ∈ l ∨ x ∈ seen) →
      jsSetDedupAux seen (l ++ b) = jsSetDedupAux seen l := by
  intro l
  induction l with
  | nil =>
    intro seen b hb
    rw [List.nil_append]
    have hb2 : ∀ x ∈ b, x ∈ seen := by
      intro x hx
      rcases hb x hx with h | h
      · exact absurd h (by simp)
      · exact h
    exact jsSetDedupAux_all_seen b seen hb2
  | cons y ys ih =>
    intro seen b hb
    rw [List.cons_append, jsSetDedupAux, jsSetDedupAux]
    by_cases hy : y ∈ seen
    · rw [if_pos hy, if_pos hy]
      exact ih seen b (fun x hx => by
        rcases hb x hx with h | h
        · rcases List.mem_cons.mp h with rfl | h2
          · exact Or.inr hy
          · exact Or.inl h2
        · exact Or.inr h)
    · rw [if_neg hy, if_neg hy]
      rw [ih (y :: seen) b (fun x hx => by
        rcases hb x hx with h | h
        · rcases List.mem_cons.mp h with rfl | h2
          · exact Or.inr (List.mem_cons_self _ _)
          · exact Or.inl h2
        · exact Or.inr (List.mem_cons.mpr (Or.inr h)))]

theorem jsSetDedup_append_absorb : ∀ (l b : List String), l.Nodup →
    (∀ x ∈ b, x ∈ l) → jsSetDedup (l ++ b) = l := by
  intro l b hnd hb
  rw [jsSetDedup, jsSetDedupAux_append_drop l [] b (fun x hx => Or.inl (hb x hx))]
  exact jsSetDedupAux_eq_self l [] hnd (by simp)

theorem jsSetDedup_nodup_self {l : List String} (h : l.Nodup) : jsSetDedup l = l :=
  jsSetDedupAux_eq_self l [] h (by simp)

theorem mem_jsSetUnion {x : String} {a b : List String} :
    x ∈ jsSetUnion a b ↔ x ∈ a ∨ x ∈ b := by
  unfold jsSetUnion
  rw [mem_jsSetDedup, List.mem_append]

theorem nodup_jsSetUnion (a b : List String) : (jsSetUnion a b).Nodup :=
  nodup_jsSetDedup _

theorem jsSetUnion_absorb (a b : List String) :
    jsSetUnion (jsSetUnion a b) b = jsSetUnion a b := by
  unfold jsSetUnion
  exact jsSetDedup_append_absorb _ b (nodup_jsSetDedup _)
    (fun x hx => mem_jsSetDedup.mpr (List.mem_append.mpr (Or.inr hx)))

theorem jsSetUnion_absorb_of_subset {a b : List String} (ha : a.Nodup)
    (hb : ∀ x ∈ b, x ∈ a) : jsSetUnion a b = a :=
  jsSetDedup_append_absorb a b ha hb

/-! ## Lemmas on `replaceFirst` -/

theorem replaceFirst_idem (l : List α) (p : α → Bool) (f : α → α)
    (hp : ∀ x, p x = true → p (f x) = true)
    (hf : ∀ x, p x = true → f (f x) = f x) :
    replaceFirst (replaceFirst l p f) p f = replaceFirst l p f := by
  induction l with
  | nil => rfl
  | cons x xs ih =>
    by_cases hx : p x = true
    · simp [replaceFirst, hx, hp x hx, hf x hx]
    · have hx' : p x = false := by simpa using hx
      simp only [replaceFirst, hx', Bool.false_eq_true, if_false]
      rw [ih]

theorem replaceFirst_append_singleton {l : List α} {c : α} {p : α → Bool} {f : α → α}
    (hl : ∀ x ∈ l, p x = false) (hc : p c = true) :
    replaceFirst (l ++ [c]) p f = l ++ [f c] := by
  induction l with
  | nil => simp [replaceFirst, hc]
  | cons x xs ih =>
    have hx := hl x (by simp)
    simp only [List.cons_append, replaceFirst, hx, Bool.false_eq_true, if_false,
      List.append_eq]
    rw [ih (fun y hy => hl y (by simp [hy]))]

theorem replaceFirst_of_not_any {l : List α} {p : α → Bool} {f : α → α}
    (hl : ∀ x ∈ l, p x = false) : replaceFirst l p f = l := by
  induction l with
  | nil => rfl
  | cons x xs ih =>
    simp only [replaceFirst, hl x (by simp), Bool.false_eq_true, if_false]
    rw [ih (fun y hy => hl y (by simp [hy]))]

/-! ## Lemmas on privilege-name decomposition -/

theorem matchPriv_eq_none_iff {name : String} :
    matchPriv name = none ↔ ∀ a ∈ actionList, privBranch name a = none := by
  unfold matchPriv
  exact List.findSome?_eq_none_iff

theorem privBranch_eq_none_iff {name a : String} :
    privBranch name a = none ↔
      ¬(jsStartsWith name ("prv" ++ a) = true ∧
        noLineTerminator (jsDrop name (3 + a.length)) = true) := by
  unfold privBranch
  by_cases h1 : jsStartsWith name ("prv" ++ a) = true
  · by_cases h2 : noLineTerminator (jsDrop name (3 + a.length)) = true
    · simp [h1, h2]
    · simp [h1, h2]
  · simp [h1]

theorem privAE_fst_eq_none_iff {name : String} :
    (privAE name).1 = none ↔ matchPriv name = none := by
  unfold privAE
  cases h : matchPriv name with
  | none =>
    by_cases hp : jsStartsWith name "prv" = true <;> simp [hp]
  | some ar => simp

theorem privBranch_none_of_not_starts {name a : String}
    (h : jsStartsWith name ("prv" ++ a) = false) : privBranch name a = none := by
  unfold privBranch
  simp [h]

/-! ## Lemmas on the retry wrapper -/

theorem executeWithRetry_ok {fn : Nat → CallOutcome α} {retries attempt : Nat}
    {a : α} (hfn : fn attempt = .ok a) :
    executeWithRetry fn retries attempt = .ok a := by
  cases retries with
  | zero => simp only [executeWithRetry, hfn]
  | succ r => simp only [executeWithRetry, hfn]

theorem executeWithRetry_quota_succ {fn : Nat → CallOutcome α} {r attempt : Nat}
    {e : JsError} (hfn : fn attempt = .err e) (hq : isQuotaMsg e.message = true) :
    executeWithRetry fn (r + 1) attempt = executeWithRetry fn r (attempt + 1) := by
  simp only [executeWithRetry, hfn, hq, if_true]

theorem executeWithRetry_quota_zero {fn : Nat → CallOutcome α} {attempt : Nat}
    {e : JsError} (hfn : fn attempt = .err e) (hq : isQuotaMsg e.message = true) :
    executeWithRetry fn 0 attempt = .quotaError "API rate limit exceeded." := by
  simp only [executeWithRetry, hfn, hq, if_true]

theorem executeWithRetry_other {fn : Nat → CallOutcome α} {retries attempt : Nat}
    {e : JsError} (hfn : fn attempt = .err e) (hq : isQuotaMsg e.message = false) :
    executeWithRetry fn retries attempt = .err e := by
  cases retries with
  | zero => simp only [executeWithRetry, hfn, hq, Bool.false_eq_true, if_false]
  | succ r => simp only [executeWithRetry, hfn, hq, Bool.false_eq_true, if_false]

theorem executeWithRetry_characterization (α : Type) :
    ∀ (retries start : Nat) (fn : Nat → CallOutcome α),
      (executeWithRetry fn retries start = .quotaError "API rate limit exceeded." ↔
        ∀ i ≤ retries, ∃ e, fn (start + i) = .err e ∧ isQuotaMsg e.message = true) ∧
      (∀ e, executeWithRetry fn retries start = .err e →
        isQuotaMsg e.message = false ∧ ∃ i ≤ retries, fn (start + i) = .err e) := by
  intro retries
  induction retries with
  | zero =>
    intro start fn
    constructor
    · constructor
      · intro h i hi
        interval_cases i
        cases hfn : fn start with
        | ok a => rw [executeWithRetry_ok hfn] at h; exact absurd h (by simp)
        | err e =>
          by_cases hq : isQuotaMsg e.message = true
          · exact ⟨e, by simpa using hfn, hq⟩
          · rw [executeWithRetry_other hfn (by simpa using hq)] at h
            exact absurd h (by simp)
      · intro h
        obtain ⟨e, he, hq⟩ := h 0 (le_refl 0)
        exact executeWithRetry_quota_zero (by simpa using he) hq
    · intro e h
      cases hfn : fn start with
      | ok a => rw [executeWithRetry_ok hfn] at h; exact absurd h (by simp)
      | err e2 =>
        by_cases hq : isQuotaMsg e2.message = true
        · rw [executeWithRetry_quota_zero hfn hq] at h; exact absurd h (by simp)
        · rw [executeWithRetry_other hfn (by simpa using hq)] at h
          obtain rfl : e2 = e := by simpa using h
          exact ⟨by simpa using hq, 0, le_refl 0, by simpa using hfn⟩
  | succ r ih =>
    intro start fn
    constructor
    · constructor
      · intro h i hi
        cases hfn : fn start with
        | ok a => rw [executeWithRetry_ok hfn] at h; exact absurd h (by simp)
        | err e =>
          by_cases hq : isQuotaMsg e.message = true
          · rw [executeWithRetry_quota_succ hfn hq] at h
            cases i with
            | zero => exact ⟨e, by simpa using hfn, hq⟩
            | succ j =>
              obtain ⟨e2, he2, hq2⟩ :=
                ((ih (start + 1) fn).1.mp h) j (Nat.le_of_succ_le_succ hi)
              exact ⟨e2, by rw [show start + (j + 1) = start + 1 + j by omega]; exact he2, hq2⟩
          · rw [executeWithRetry_other hfn (by simpa using hq)] at h
            exact absurd h (by simp)
      · intro h
        obtain ⟨e, he, hq⟩ := h 0 (Nat.zero_le _)
        rw [executeWithRetry_quota_succ (by simpa using he) hq]
        refine ((ih (start + 1) fn).1.mpr ?_)
        intro j hj
        obtain ⟨e2, he2, hq2⟩ := h (j + 1) (by omega)
        exact ⟨e2, by rw [show start + 1 + j = start + (j + 1) by omega]; exact he2, hq2⟩
    · intro e h
      cases hfn : fn start with
      | ok a => rw [executeWithRetry_ok hfn] at h; exact absurd h (by simp)
      | err e2 =>
        by_cases hq : isQuotaMsg e2.message = true
        · rw [executeWithRetry_quota_succ hfn hq] at h
          obtain ⟨hq2, j, hj, hje⟩ := (ih (start + 1) fn).2 e h
          exact ⟨hq2, j + 1, by omega,
            by rw [show start + (j + 1) = start + 1 + j by omega]; exact hje⟩
        · rw [executeWithRetry_other hfn (by simpa using hq)] at h
          obtain rfl : e2 = e := by simpa using h
          exact ⟨by simpa using hq, 0, Nat.zero_le _, by simpa using hfn⟩

/-! ## Lemmas on the final id deduplication -/

theorem dedupByIdAux_not_seen :
    ∀ (cs : List LogicalComponent) (seen : List String),
      ∀ c ∈ dedupByIdAux seen cs, c.id ∉ seen := by
  intro cs
  induction cs with
  | nil => intro seen c hc; exact absurd hc (by simp [dedupByIdAux])
  | cons d ds ih =>
    intro seen c hc
    rw [dedupByIdAux] at hc
    by_cases hd : d.id ∈ seen
    · rw [if_pos hd] at hc
      exact ih seen c hc
    · rw [if_neg hd] at hc
      rcases List.mem_cons.mp hc with h | h
      · subst h; exact hd
      · intro hmem
        exact ih (d.id :: seen) c h (List.mem_cons.mpr (Or.inr hmem))

theorem dedupByIdAux_nodup :
    ∀ (cs : List LogicalComponent) (seen : List String),
      ((dedupByIdAux seen cs).map (fun c => c.id)).Nodup := by
  intro cs
  induction cs with
  | nil => intro seen; simp [dedupByIdAux]
  | cons d ds ih =>
    intro seen
    rw [dedupByIdAux]
    by_cases hd : d.id ∈ seen
    · rw [if_pos hd]; exact ih seen
    · rw [if_neg hd]
      simp only [List.map_cons, List.nodup_cons]
      refine ⟨?_, ih (d.id :: seen)⟩
      intro hmem
      rcases List.mem_map.mp hmem with ⟨c, hc, hcid⟩
      exact dedupByIdAux_not_seen ds (d.id :: seen) c hc
        (List.mem_cons.mpr (Or.inl hcid))

theorem dedupByIdAux_keep_first :
    ∀ (cs : List LogicalComponent) (seen : List String),
      ∀ c ∈ dedupByIdAux seen cs,
        cs.find? (fun t => decide (t.id = c.id)) = some c := by
  intro cs
  induction cs with
  | nil => intro seen c hc; exact absurd hc (by simp [dedupByIdAux])
  | cons d ds ih =>
    intro seen c hc
    rw [dedupByIdAux] at hc
    by_cases hd : d.id ∈ seen
    · rw [if_pos hd] at hc
      have hcs := dedupByIdAux_not_seen ds seen c hc
      have hne : d.id ≠ c.id := fun h => hcs (h ▸ hd)
      simp only [List.find?_cons, decide_eq_false hne]
      exact ih seen c hc
    · rw [if_neg hd] at hc
      rcases List.mem_cons.mp hc with h | h
      · subst h
        rw [List.find?_cons]
        simp
      · have hcs := dedupByIdAux_not_seen ds (d.id :: seen) c h
        have hne : d.id ≠ c.id := fun hh => hcs (List.mem_cons.mpr (Or.inl hh.symm))
        simp only [List.find?_cons, decide_eq_false hne]
        exact ih (d.id :: seen) c h

theorem dedupByIdAux_complete :
    ∀ (cs : List LogicalComponent) (seen : List String),
      ∀ c ∈ cs, c.id ∈ seen ∨ ∃ c' ∈ dedupByIdAux seen cs, c'.id = c.id := by
  intro cs
  induction cs with
  | nil => intro seen c hc; exact absurd hc (by simp)
  | cons d ds ih =>
    intro seen c hc
    rw [dedupByIdAux]
    by_cases hd : d.id ∈ seen
    · rw [if_pos hd]
      rcases List.mem_cons.mp hc with h | h
      · subst h; exact Or.inl hd
      · exact ih seen c h
    · rw [if_neg hd]
      rcases List.mem_cons.mp hc with h | h
      · subst h; exact Or.inr ⟨c, by simp⟩
      · rcases ih (d.id :: seen) c h with hmem | ⟨c', hc', hid⟩
        · rcases List.mem_cons.mp hmem with hh | hh
          · exact Or.inr ⟨d, by simp, hh.symm⟩
          · exact Or.inl hh
        · exact Or.inr ⟨c', List.mem_cons.mpr (Or.inr hc'), hid⟩

/-! ## Claim theorems (first group) -/

/-- C5: privilege raw names decompose along `prv<Action><Entity>` with the
fixed action vocabulary: `prvCreateAccount` gives action `Create` and
entity `Account`; a matched action with an empty remainder is bucketed
under the sentinel entity `Global System`; a name starting with no
recognized action prefix gets no action and, as entity, the name with any
`prv` prefix stripped. -/
theorem C5_privilege_name_decomposition :
    ((parsePrivilege ⟨"prvCreateAccount", none, none, none⟩).action = some "Create" ∧
     (parsePrivilege ⟨"prvCreateAccount", none, none, none⟩).entity = some "Account") ∧
    (∀ a ∈ actionList, ∀ p : RawPrivilege, p.name = "prv" ++ a →
      (parsePrivilege p).action = some a ∧
      (parsePrivilege p).entity = some "Global System") ∧
    (∀ p : RawPrivilege,
      (∀ a ∈ actionList, jsStartsWith p.name ("prv" ++ a) = false) →
      (parsePrivilege p).action = none ∧
      (parsePrivilege p).entity =
        some (if jsStartsWith p.name "prv" = true then jsDrop p.name 3 else p.name)) := by
  refine ⟨⟨by decide, by decide⟩, ?_, ?_⟩
  · intro a ha
    fin_cases ha <;>
      (intro p hp
       constructor
       · show (privAE p.name).1 = _
         rw [hp]; decide
       · show some (privAE p.name).2 = _
         rw [hp]; decide)
  · intro p hp
    have hm : matchPriv p.name = none :=
      matchPriv_eq_none_iff.mpr (fun a ha => privBranch_none_of_not_starts (hp a ha))
    constructor
    · show (privAE p.name).1 = none
      unfold privAE
      rw [hm]
      by_cases h3 : jsStartsWith p.name "prv" = true <;> simp [h3]
    · show some (privAE p.name).2 = _
      unfold privAE
      rw [hm]
      by_cases h3 : jsStartsWith p.name "prv" = true <;> simp [h3]

/-- Witness for C5 at a concrete outlier privilege name. -/
theorem C5_witness :
    (parsePrivilege ⟨"prvActOnBehalfOfAnotherUser", none, none, none⟩).action = none ∧
    (parsePrivilege ⟨"prvActOnBehalfOfAnotherUser", none, none, none⟩).entity =
      some (if jsStartsWith "prvActOnBehalfOfAnotherUser" "prv" = true
            then jsDrop "prvActOnBehalfOfAnotherUser" 3
            else "prvActOnBehalfOfAnotherUser") :=
  C5_privilege_name_decomposition.2.2 ⟨"prvActOnBehalfOfAnotherUser", none, none, none⟩
    (by decide)

/-- C10: every privilege record built by the role parser has a defined
entity, and its action is unset exactly when the
`prv<Action>` regular-expression pattern fails to match the raw name. -/
theorem C10_privilege_entity_defined :
    ∀ ps : List RawPrivilege, ∀ pr ∈ parseRolePrivileges ps,
      pr.entity ≠ none ∧
      (pr.action = none ↔ ∀ a ∈ actionList,
        ¬(jsStartsWith pr.name ("prv" ++ a) = true ∧
          noLineTerminator (jsDrop pr.name (3 + a.length)) = true)) := by
  intro ps pr hpr
  rcases List.mem_map.mp hpr with ⟨q, hq, rfl⟩
  constructor
  · show some (privAE q.name).2 ≠ none
    simp
  · show (privAE q.name).1 = none ↔ _
    rw [privAE_fst_eq_none_iff, matchPriv_eq_none_iff]
    constructor
    · intro h a ha
      have h2 := h a ha
      rw [privBranch_eq_none_iff] at h2
      exact h2
    · intro h a ha
      rw [privBranch_eq_none_iff]
      exact h a ha

/-- Witness for C10 at a concrete privilege list. -/
theorem C10_witness :
    (parsePrivilege ⟨"prvQux", none, none, none⟩).entity ≠ none ∧
    ((parsePrivilege ⟨"prvQux", none, none, none⟩).action = none ↔
      ∀ a ∈ actionList,
        ¬(jsStartsWith (parsePrivilege ⟨"prvQux", none, none, none⟩).name
            ("prv" ++ a) = true ∧
          noLineTerminator (jsDrop (parsePrivilege ⟨"prvQux", none, none, none⟩).name
            (3 + a.length)) = true)) :=
  C10_privilege_entity_defined [⟨"prvQux", none, none, none⟩]
    (parsePrivilege ⟨"prvQux", none, none, none⟩) (by decide)

/-- C9: the retry wrapper surfaces the distinct `QuotaError` exactly when
every attempt up to the retry budget fails with a quota-exhaustion message,
and re-throws any other error unchanged (never converting it into the
quota signal). -/
theorem C9_quota_error_distinct (α : Type) :
    ∀ (retries start : Nat) (fn : Nat → CallOutcome α),
      (executeWithRetry fn retries start = .quotaError "API rate limit exceeded." ↔
        ∀ i ≤ retries, ∃ e, fn (start + i) = .err e ∧ isQuotaMsg e.message = true) ∧
      (∀ e, executeWithRetry fn retries start = .err e →
        isQuotaMsg e.message = false ∧ ∃ i ≤ retries, fn (start + i) = .err e) :=
  executeWithRetry_characterization α

/-- Witness for C9 at a concrete always-quota-failing call. -/
theorem C9_witness :
    ∃ e, (fun _ : Nat => (CallOutcome.err ⟨"429 too many requests"⟩ : CallOutcome Nat))
        (0 + 0) = .err e ∧ isQuotaMsg e.message = true :=
  ((C9_quota_error_distinct Nat 3 0
      (fun _ => .err ⟨"429 too many requests"⟩)).1.mp (by decide)) 0 (by decide)

/-- C3: after the final deduplication pass the component ids are unique;
the pass keeps exactly the first occurrence of each id and loses no id. -/
theorem C3_component_ids_unique :
    ∀ comps : List LogicalComponent,
      ((dedupById comps).map (fun c => c.id)).Nodup ∧
      (∀ c ∈ dedupById comps, comps.find? (fun t => decide (t.id = c.id)) = some c) ∧
      (∀ c ∈ comps, ∃ c' ∈ dedupById comps, c'.id = c.id) := by
  intro comps
  refine ⟨dedupByIdAux_nodup comps [], ?_, ?_⟩
  · intro c hc
    exact dedupByIdAux_keep_first comps [] c hc
  · intro c hc
    rcases dedupByIdAux_complete comps [] c hc with h | h
    · exact absurd h (by simp)
    · exact h

/-- Witness for C3 on a list with a duplicated id. -/
theorem C3_witness :
    ([⟨"a", "x", "x", .Other, none, [], none⟩,
      ⟨"a", "y", "y", .Other, none, [], none⟩,
      ⟨"b", "z", "z", .Other, none, [], none⟩] :
        List LogicalComponent).find?
      (fun t => decide (t.id = (⟨"a", "x", "x", .Other, none, [], none⟩ :
        LogicalComponent).id)) = some ⟨"a", "x", "x", .Other, none, [], none⟩ :=
  (C3_component_ids_unique
    [⟨"a", "x", "x", .Other, none, [], none⟩,
     ⟨"a", "y", "y", .Other, none, [], none⟩,
     ⟨"b", "z", "z", .Other, none, [], none⟩]).2.1
    ⟨"a", "x", "x", .Other, none, [], none⟩ (by decide)

/-- C6 counterexample: the security-role merge overwrites `displayName`
with an incoming empty string, and the canvas-app merge does not union the
incoming file paths into the existing component. -/
theorem C6_counterexample :
    (mergeRole ⟨"r1", "Admin", "admin", .SecurityRole, none, ["f1"], some (.role [])⟩
      "" []).displayName = "" ∧
    ("Admin" : String) ≠ "" ∧
    (upsertCanvas [⟨"A", "Old", "appname", .App, none, ["old.xml"], some .other⟩]
        "appname" "A" "New" .other "" ["new.xml"]) =
      [⟨"A", "New", "appname", .App, none, ["old.xml"], some .other⟩] ∧
    ("new.xml" : String) ∉ (["old.xml"] : List String) :=
  ⟨rfl, by decide, by decide, by decide⟩

/-- C6 amended: every merge overwrites `displayName` unconditionally
(even by an empty display name); the role, table, model-app, and canvas
merges also overwrite `metadata` unconditionally, while the flow merge
leaves `metadata` unchanged; `type` is rewritten only by the canvas merge
(always to `App`); `files` is never replaced — the flow merge unions the
incoming paths into the existing set without duplicates, and the role,
table, model-app, and canvas merges leave `files` untouched (dropping the
contribution's file paths). -/
theorem C6_merge_policy_amended :
    (∀ (c : LogicalComponent) (n : String) (ps : List Privilege),
      (mergeRole c n ps).displayName = n ∧
      (mergeRole c n ps).metadata = some (.role ps) ∧
      (mergeRole c n ps).files = c.files ∧
      (mergeRole c n ps).id = c.id ∧
      (mergeRole c n ps).type = c.type) ∧
    (∀ (c : LogicalComponent) (d : String) (fs : List Field),
      (mergeTable c d fs).displayName = d ∧
      (mergeTable c d fs).metadata = some (.table fs) ∧
      (mergeTable c d fs).files = c.files ∧
      (mergeTable c d fs).id = c.id ∧
      (mergeTable c d fs).type = c.type) ∧
    (∀ (c : LogicalComponent) (d : String) (m : Metadata),
      (mergeModelApp c d m).displayName = d ∧
      (mergeModelApp c d m).metadata = some m ∧
      (mergeModelApp c d m).files = c.files ∧
      (mergeModelApp c d m).id = c.id ∧
      (mergeModelApp c d m).type = c.type) ∧
    (∀ (c : LogicalComponent) (d : String) (m : Metadata),
      (mergeCanvas c d m).type = .App ∧
      (mergeCanvas c d m).displayName = d ∧
      (mergeCanvas c d m).metadata = some m ∧
      (mergeCanvas c d m).files = c.files ∧
      (mergeCanvas c d m).id = c.id) ∧
    (∀ (c : LogicalComponent) (n : String) (fs : List String),
      (mergeFlow c n fs).displayName = n ∧
      (mergeFlow c n fs).metadata = c.metadata ∧
      (mergeFlow c n fs).type = c.type ∧
      (mergeFlow c n fs).id = c.id ∧
      (∀ q : String, q ∈ (mergeFlow c n fs).files ↔ q ∈ c.files ∨ q ∈ fs) ∧
      (mergeFlow c n fs).files.Nodup) :=
  ⟨fun _ _ _ => ⟨rfl, rfl, rfl, rfl, rfl⟩,
   fun _ _ _ => ⟨rfl, rfl, rfl, rfl, rfl⟩,
   fun _ _ _ => ⟨rfl, rfl, rfl, rfl, rfl⟩,
   fun _ _ _ => ⟨rfl, rfl, rfl, rfl, rfl⟩,
   fun c n fs => ⟨rfl, rfl, rfl, rfl, fun _ => mem_jsSetUnion,
     nodup_jsSetUnion _ _⟩⟩

/-- C7 counterexample: a `.png` entry keeps its decoded text content; its
content is not replaced by the binary marker even though `png` is not a
text-decodable extension. -/
theorem C7_counterexample :
    readEntries [("image.png", "PNGDATA")] =
      [{ name := "image.png", path := "image.png", content := "PNGDATA",
         type := .other }] ∧
    ("PNGDATA" : String) ≠ "[Binary Content]" :=
  ⟨by decide, by decide⟩

/-- C7 amended: every entry is decoded as text and keeps its decoded
content except paths ending in `.msapp`, whose stored content is the
binary marker; the extension determines only the recorded file type, with
exactly the extensions xml/xaml/json/js/css mapping to a non-`other`
type. -/
theorem C7_text_decoding_amended :
    ∀ (entries : List (String × String)) (p t : String), (p, t) ∈ entries →
      ∃ f ∈ readEntries entries,
        f.path = p ∧
        f.type = fileTypeOf p ∧
        f.content = (if jsEndsWith p ".msapp" = true then "[Binary Content]" else t) ∧
        (f.type ≠ .other ↔
          extOf p ∈ (["xml", "xaml", "json", "js", "css"] : List String)) := by
  intro entries p t hmem
  refine ⟨{ name := entryName p, path := p, content := entryContent p t,
            type := fileTypeOf p },
          List.mem_map.mpr ⟨(p, t), hmem, rfl⟩, rfl, rfl, rfl, ?_⟩
  show fileTypeOf p ≠ .other ↔ _
  unfold fileTypeOf
  split_ifs with h1 h2 h3 h4 h5
  · simp [h1]
  · simp [h2]
  · simp [h3]
  · simp [h4]
  · simp [h5]
  · simp [h1, h2, h3, h4, h5]

/-- Witness for C7 at a concrete xml entry. -/
theorem C7_witness :
    ∃ f ∈ readEntries [("customizations.xml", "<root/>")],
      f.path = "customizations.xml" ∧
      f.type = fileTypeOf "customizations.xml" ∧
      f.content = (if jsEndsWith "customizations.xml" ".msapp" = true
                   then "[Binary Content]" else "<root/>") ∧
      (f.type ≠ .other ↔
        extOf "customizations.xml" ∈
          (["xml", "xaml", "json", "js", "css"] : List String)) :=
  C7_text_decoding_amended [("customizations.xml", "<root/>")]
    "customizations.xml" "<root/>" (by decide)

/-! ## Idempotence of the reconciliation upserts (C8) -/

theorem replaceFirst_any (l : List α) (p : α → Bool) (f : α → α)
    (hp : ∀ x, p x = true → p (f x) = true) :
    (replaceFirst l p f).any p = l.any p := by
  induction l with
  | nil => rfl
  | cons x xs ih =>
    by_cases hx : p x = true
    · simp [replaceFirst, hx, hp x hx]
    · have hx' : p x = false := by simpa using hx
      simp [replaceFirst, hx', ih]

theorem map_path_filter_nodup {files : List SolutionFile} {q : SolutionFile → Bool}
    (h : (files.map (fun f => f.path)).Nodup) :
    ((files.filter q).map (fun f => f.path)).Nodup :=
  ((List.filter_sublist files).map (fun f => f.path)).nodup h

theorem flowFilesMerge_subset {files : List SolutionFile} {nf wid : String} :
    ∀ x ∈ flowFilesMerge files nf, x ∈ flowFilesCreate files nf wid := by
  intro x hx
  rcases List.mem_map.mp hx with ⟨f, hf, rfl⟩
  rcases List.mem_filter.mp hf with ⟨hfm, hq⟩
  exact List.mem_map.mpr ⟨f, List.mem_filter.mpr ⟨hfm, by simp [hq]⟩, rfl⟩

/-- C8: merging the same security-role contribution, or the same workflow
contribution, into the component state twice yields the same components
list as merging it once; in particular the second merge duplicates no
`files` entry and changes no field. The workflow part assumes what holds
of every ingested bundle: the raw file paths are pairwise distinct. -/
theorem C8_reconciliation_idempotent :
    (∀ (comps : List LogicalComponent) (rid name : String) (privs : List Privilege),
      upsertRole (upsertRole comps rid name privs) rid name privs =
        upsertRole comps rid name privs) ∧
    (∀ (comps : List LogicalComponent) (files : List SolutionFile)
        (name wid fileName desc : String),
      (files.map (fun f => f.path)).Nodup →
      upsertFlow (upsertFlow comps files name wid fileName desc) files name wid
          fileName desc =
        upsertFlow comps files name wid fileName desc) := by
  constructor
  · intro comps rid name privs
    by_cases hany : comps.any
        (fun c => decide (c.id = rid) && decide (c.type = .SecurityRole)) = true
    · have hinner : upsertRole comps rid name privs =
          replaceFirst comps
            (fun c => decide (c.id = rid) && decide (c.type = .SecurityRole))
            (fun c => mergeRole c name privs) := by
        rw [upsertRole, if_pos hany]
      rw [hinner, upsertRole,
        if_pos (by
          rw [replaceFirst_any comps
            (fun c => decide (c.id = rid) && decide (c.type = .SecurityRole))
            (fun c => mergeRole c name privs) (fun x hx => hx)]
          exact hany)]
      exact replaceFirst_idem comps
        (fun c => decide (c.id = rid) && decide (c.type = .SecurityRole))
        (fun c => mergeRole c name privs) (fun x hx => hx) (fun x _ => rfl)
    · have hany' := (Bool.not_eq_true _).mp hany
      have hinner : upsertRole comps rid name privs =
          comps ++ [{ id := rid, displayName := name, logicalName := name,
                      type := .SecurityRole, description := none, files := [],
                      metadata := some (.role privs) }] := by
        rw [upsertRole, if_neg hany]
      have hnew : (fun c : LogicalComponent =>
          decide (c.id = rid) && decide (c.type = .SecurityRole))
          { id := rid, displayName := name, logicalName := name,
            type := .SecurityRole, description := none, files := [],
            metadata := some (.role privs) } = true := by simp
      have hall : ∀ x ∈ comps, (fun c : LogicalComponent =>
          decide (c.id = rid) && decide (c.type = .SecurityRole)) x = false := by
        intro x hxm
        exact (List.any_eq_false.mp hany') x hxm |> fun h => by simpa using h
      rw [hinner, upsertRole, if_pos (by simp)]
      rw [replaceFirst_append_singleton hall hnew]
      rfl
  · intro comps files name wid fileName desc hnodup
    by_cases hany : comps.any (fun c => decide (c.id = wid)) = true
    · have hinner : upsertFlow comps files name wid fileName desc =
          replaceFirst comps (fun c => decide (c.id = wid))
            (fun c => mergeFlow c name
              (flowFilesMerge files
                (if jsStartsWith fileName "/" = true then jsDrop fileName 1
                 else fileName))) := by
        rw [upsertFlow, if_pos hany]
      rw [hinner, upsertFlow,
        if_pos (by
          rw [replaceFirst_any comps (fun c => decide (c.id = wid))
            (fun c => mergeFlow c name
              (flowFilesMerge files
                (if jsStartsWith fileName "/" = true then jsDrop fileName 1
                 else fileName))) (fun x hx => hx)]
          exact hany)]
      refine replaceFirst_idem comps (fun c => decide (c.id = wid))
        (fun c => mergeFlow c name
          (flowFilesMerge files
            (if jsStartsWith fileName "/" = true then jsDrop fileName 1
             else fileName))) (fun x hx => hx) (fun x _ => ?_)
      show mergeFlow (mergeFlow x name _) name _ = mergeFlow x name _
      simp [mergeFlow, jsSetUnion_absorb]
    · have hany' := (Bool.not_eq_true _).mp hany
      have hinner : upsertFlow comps files name wid fileName desc =
          comps ++ [{ id := wid, displayName := name, logicalName := wid,
                      type := .Flow, description := some desc,
                      files := flowFilesCreate files
                        (if jsStartsWith fileName "/" = true then jsDrop fileName 1
                         else fileName) wid,
                      metadata := none }] := by
        rw [upsertFlow, if_neg hany]
      have hnew : (fun c : LogicalComponent => decide (c.id = wid))
          { id := wid, displayName := name, logicalName := wid,
            type := .Flow, description := some desc,
            files := flowFilesCreate files
              (if jsStartsWith fileName "/" = true then jsDrop fileName 1
               else fileName) wid,
            metadata := none } = true := by simp
      have hall : ∀ x ∈ comps,
          (fun c : LogicalComponent => decide (c.id = wid)) x = false := by
        intro x hxm
        exact (List.any_eq_false.mp hany') x hxm |> fun h => by simpa using h
      rw [hinner, upsertFlow, if_pos (by simp)]
      rw [replaceFirst_append_singleton hall hnew]
      have hfs : jsSetUnion
          (flowFilesCreate files
            (if jsStartsWith fileName "/" = true then jsDrop fileName 1
             else fileName) wid)
          (flowFilesMerge files
            (if jsStartsWith fileName "/" = true then jsDrop fileName 1
             else fileName)) =
          flowFilesCreate files
            (if jsStartsWith fileName "/" = true then jsDrop fileName 1
             else fileName) wid :=
        jsSetUnion_absorb_of_subset (map_path_filter_nodup hnodup)
          (fun x hx => flowFilesMerge_subset x hx)
      simp [mergeFlow, hfs]

/-- Witness for C8 at a concrete workflow contribution. -/
theorem C8_witness :
    upsertFlow
        (upsertFlow [] [⟨"f.json", "Workflows/f.json", "x", .json⟩]
          "Flow1" "w1" "/Workflows/f.json" "")
        [⟨"f.json", "Workflows/f.json", "x", .json⟩]
        "Flow1" "w1" "/Workflows/f.json" "" =
      upsertFlow [] [⟨"f.json", "Workflows/f.json", "x", .json⟩]
        "Flow1" "w1" "/Workflows/f.json" "" :=
  C8_reconciliation_idempotent.2 [] [⟨"f.json", "Workflows/f.json", "x", .json⟩]
    "Flow1" "w1" "/Workflows/f.json" "" (by decide)

/-! ## Lemmas on relationship aggregation (C4) -/

theorem strLe_isTotal : IsTotal String (fun a b => strLe a b = true) :=
  ⟨strLe_total⟩

theorem strLe_isTrans : IsTrans String (fun a b => strLe a b = true) :=
  ⟨fun _ _ _ h1 h2 => strLe_trans h1 h2⟩

theorem strLe_isAntisymm : IsAntisymm String (fun a b => strLe a b = true) :=
  ⟨fun _ _ h1 h2 => strLe_antisymm h1 h2⟩

theorem insertionSort_strLe_perm_eq {l1 l2 : List String} (h : l1.Perm l2) :
    List.insertionSort (fun a b => strLe a b = true) l1 =
      List.insertionSort (fun a b => strLe a b = true) l2 := by
  haveI := strLe_isTotal
  haveI := strLe_isTrans
  haveI := strLe_isAntisymm
  exact List.eq_of_perm_of_sorted
    ((List.perm_insertionSort _ l1).trans (h.trans (List.perm_insertionSort _ l2).symm))
    (List.sorted_insertionSort _ l1) (List.sorted_insertionSort _ l2)

theorem relKey_swap (r : EntityRelationship) : relKey (swapRel r) = relKey r := by
  unfold relKey swapRel
  exact congrArg (String.intercalate "-")
    (insertionSort_strLe_perm_eq (List.Perm.swap _ _ _))

theorem relStep_pres (E : List EntityMetadata)
    (acc : List EntityRelationship × List String) (r : EntityRelationship)
    (h : acc.2 = acc.1.map relKey ∧ acc.2.Nodup) :
    (relStep E acc r).2 = (relStep E acc r).1.map relKey ∧
      (relStep E acc r).2.Nodup := by
  obtain ⟨h1, h2⟩ := h
  unfold relStep
  split_ifs with hc hs
  · exact ⟨h1, h2⟩
  · have hnot : relKey r ∉ acc.2 := by
      intro hmem
      exact hs (List.any_eq_true.mpr ⟨relKey r, hmem, by simp⟩)
    constructor
    · simp [h1]
    · rw [List.nodup_append]
      exact ⟨h2, List.nodup_singleton _, by simpa using hnot⟩
  · exact ⟨h1, h2⟩

theorem relStep_mono (E : List EntityMetadata)
    (acc : List EntityRelationship × List String) (r : EntityRelationship)
    {x : String} (hx : x ∈ acc.2) : x ∈ (relStep E acc r).2 := by
  unfold relStep
  split_ifs <;> simp [hx]

theorem relStep_adds (E : List EntityMetadata)
    (acc : List EntityRelationship × List String) (r : EntityRelationship)
    (hf : E.any (fun e2 => decide (e2.logicalName = r.fromEntity)) = true)
    (ht : E.any (fun e2 => decide (e2.logicalName = r.toEntity)) = true) :
    relKey r ∈ (relStep E acc r).2 := by
  unfold relStep
  rw [if_pos (by simp [hf, ht])]
  split_ifs with hs
  · rcases List.any_eq_true.mp hs with ⟨k, hk, he⟩
    exact (by simpa using he : k = relKey r) ▸ hk
  · simp

theorem foldRels_pres (E : List EntityMetadata) :
    ∀ (rels : List EntityRelationship) (acc : List EntityRelationship × List String),
      (acc.2 = acc.1.map relKey ∧ acc.2.Nodup) →
      ((rels.foldl (relStep E) acc).2 = (rels.foldl (relStep E) acc).1.map relKey ∧
        (rels.foldl (relStep E) acc).2.Nodup) := by
  intro rels
  induction rels with
  | nil => intro acc h; exact h
  | cons r rs ih => intro acc h; exact ih _ (relStep_pres E acc r h)

theorem foldRels_mono (E : List EntityMetadata) :
    ∀ (rels : List EntityRelationship) (acc : List EntityRelationship × List String)
      {x : String}, x ∈ acc.2 → x ∈ (rels.foldl (relStep E) acc).2 := by
  intro rels
  induction rels with
  | nil => intro acc x hx; exact hx
  | cons r rs ih => intro acc x hx; exact ih _ (relStep_mono E acc r hx)

theorem foldRels_adds (E : List EntityMetadata) :
    ∀ (rels : List EntityRelationship) (acc : List EntityRelationship × List String)
      (r : EntityRelationship), r ∈ rels →
      E.any (fun e2 => decide (e2.logicalName = r.fromEntity)) = true →
      E.any (fun e2 => decide (e2.logicalName = r.toEntity)) = true →
      relKey r ∈ (rels.foldl (relStep E) acc).2 := by
  intro rels
  induction rels with
  | nil => intro acc r hr; exact absurd hr (by simp)
  | cons d ds ih =>
    intro acc r hr hf ht
    rcases List.mem_cons.mp hr with h | h
    · subst h
      exact foldRels_mono E ds _ (relStep_adds E acc r hf ht)
    · exact ih _ r h hf ht

theorem foldEnts_pres (E : List EntityMetadata) :
    ∀ (es : List EntityMetadata) (acc : List EntityRelationship × List String),
      (acc.2 = acc.1.map relKey ∧ acc.2.Nodup) →
      (((es.foldl (fun acc e => e.relationships.foldl (relStep E) acc) acc)).2 =
          ((es.foldl (fun acc e => e.relationships.foldl (relStep E) acc) acc)).1.map
            relKey ∧
        ((es.foldl (fun acc e => e.relationships.foldl (relStep E) acc) acc)).2.Nodup) := by
  intro es
  induction es with
  | nil => intro acc h; exact h
  | cons e es ih => intro acc h; exact ih _ (foldRels_pres E e.relationships acc h)

theorem foldEnts_mono (E : List EntityMetadata) :
    ∀ (es : List EntityMetadata) (acc : List EntityRelationship × List String)
      {x : String}, x ∈ acc.2 →
      x ∈ ((es.foldl (fun acc e => e.relationships.foldl (relStep E) acc) acc)).2 := by
  intro es
  induction es with
  | nil => intro acc x hx; exact hx
  | cons e es ih => intro acc x hx; exact ih _ (foldRels_mono E e.relationships acc hx)

theorem foldEnts_adds (E : List EntityMetadata) :
    ∀ (es : List EntityMetadata) (acc : List EntityRelationship × List String)
      (e : EntityMetadata) (r : EntityRelationship),
      e ∈ es → r ∈ e.relationships →
      E.any (fun e2 => decide (e2.logicalName = r.fromEntity)) = true →
      E.any (fun e2 => decide (e2.logicalName = r.toEntity)) = true →
      relKey r ∈
        ((es.foldl (fun acc e => e.relationships.foldl (relStep E) acc) acc)).2 := by
  intro es
  induction es with
  | nil => intro acc e r he; exact absurd he (by simp)
  | cons d ds ih =>
    intro acc e r he hr hf ht
    rcases List.mem_cons.mp he with h | h
    · subst h
      exact foldEnts_mono E ds _ (foldRels_adds E e.relationships acc r hr hf ht)
    · exact ih _ e r h hr hf ht

theorem countP_key_eq_one {α : Type} {l : List α} {g : α → String} {k : String}
    (hn : (l.map g).Nodup) (he : ∃ x ∈ l, g x = k) :
    l.countP (fun x => decide (g x = k)) = 1 := by
  induction l with
  | nil => exact absurd he (by simp)
  | cons y ys ih =>
    rw [List.map_cons] at hn
    obtain ⟨hn1, hn2⟩ := List.nodup_cons.mp hn
    by_cases hy : g y = k
    · rw [List.countP_cons_of_pos _ _ (by simpa using hy)]
      have h0 : ys.countP (fun x => decide (g x = k)) = 0 := by
        rw [List.countP_eq_zero]
        intro a ha
        simp only [decide_eq_true_eq]
        intro hak
        exact hn1 (hy ▸ hak ▸ List.mem_map_of_mem _ ha)
      rw [h0]
    · rw [List.countP_cons_of_neg _ _ (by simpa using hy)]
      apply ih hn2
      rcases he with ⟨x, hx, hxk⟩
      rcases List.mem_cons.mp hx with h | h
      · exact absurd (h ▸ hxk) hy
      · exact ⟨x, h, hxk⟩

/-- C4: the visualizer's aggregate edge list is deduplicated by a key that
is independent of the relationship's declared direction; a relationship
declared from both participating entities' perspectives collapses to
exactly one edge: whenever the relationship occurs in at least one
(so possibly both) laid-out entity's list, exactly one edge with its key
survives. -/
theorem C4_relationship_dedup :
    ∀ (entities : List EntityMetadata) (r : EntityRelationship),
      ((allRelationships entities).map relKey).Nodup ∧
      relKey (swapRel r) = relKey r ∧
      ((∃ e ∈ entities, r ∈ e.relationships) →
        r.fromEntity ∈ entities.map (fun e => e.logicalName) →
        r.toEntity ∈ entities.map (fun e => e.logicalName) →
        (allRelationships entities).countP
          (fun x => decide (relKey x = relKey r)) = 1) := by
  intro entities r
  have hpres := foldEnts_pres entities entities ([], []) (by simp)
  refine ⟨hpres.1 ▸ hpres.2, relKey_swap r, ?_⟩
  · intro hdecl hf ht
    have hf' : entities.any (fun e2 => decide (e2.logicalName = r.fromEntity)) = true := by
      rcases List.mem_map.mp hf with ⟨e2, he2, hname⟩
      exact List.any_eq_true.mpr ⟨e2, he2, by simp [hname]⟩
    have ht' : entities.any (fun e2 => decide (e2.logicalName = r.toEntity)) = true := by
      rcases List.mem_map.mp ht with ⟨e2, he2, hname⟩
      exact List.any_eq_true.mpr ⟨e2, he2, by simp [hname]⟩
    rcases hdecl with ⟨e, he, hr⟩
    have hin : relKey r ∈
        ((entities.foldl (fun acc e => e.relationships.foldl (relStep entities) acc)
          ([], [])).2) :=
      foldEnts_adds entities entities ([], []) e r he hr hf' ht'
    rw [hpres.1] at hin
    rcases List.mem_map.mp hin with ⟨x, hx, hxk⟩
    exact countP_key_eq_one (hpres.1 ▸ hpres.2) ⟨x, hx, hxk⟩

/-- Witness for C4: a relationship attached (by the parser) to both its
referenced and referencing entity collapses to a single aggregate edge. -/
theorem C4_witness :
    (allRelationships
      (attachRelationships
        [⟨"account", "Account", [], []⟩, ⟨"contact", "Contact", [], []⟩]
        [⟨some "acc_contact", some "OneToMany", some "account", some "contact"⟩])).countP
      (fun x => decide (relKey x =
        relKey ⟨"acc_contact", "OneToMany", "account", "contact"⟩)) = 1 :=
  (C4_relationship_dedup
    (attachRelationships
      [⟨"account", "Account", [], []⟩, ⟨"contact", "Contact", [], []⟩]
      [⟨some "acc_contact", some "OneToMany", some "account", some "contact"⟩])
    ⟨"acc_contact", "OneToMany", "account", "contact"⟩).2.2
    (by decide) (by decide) (by decide)

/-! ## Lemmas on the JS `Map` model (C1, C2) -/

theorem jsMapOf_loop {α : Type} (key : α → String) :
    ∀ (l : List α) (acc : List (String × α)),
      (l.map key).Nodup →
      (∀ x ∈ l, ∀ kv ∈ acc, kv.1 ≠ key x) →
      l.foldl (fun acc x => jsMapInsert acc (key x) x) acc =
        acc ++ l.map (fun x => (key x, x)) := by
  intro l
  induction l with
  | nil => intro acc _ _; simp
  | cons x xs ih =>
    intro acc hnd hdis
    rw [List.map_cons] at hnd
    obtain ⟨hnd1, hnd2⟩ := List.nodup_cons.mp hnd
    rw [List.foldl_cons]
    have hfalse : acc.any (fun kv => decide (kv.1 = key x)) = false := by
      rw [List.any_eq_false]
      intro kv hkv
      simp only [decide_eq_true_eq]
      exact hdis x (by simp) kv hkv
    have hins : jsMapInsert acc (key x) x = acc ++ [(key x, x)] := by
      unfold jsMapInsert
      rw [hfalse]
      simp
    rw [hins, ih (acc ++ [(key x, x)]) hnd2 ?_]
    · simp
    · intro y hy kv hkv
      rcases List.mem_append.mp hkv with h | h
      · exact hdis y (by simp [hy]) kv h
      · have hkvx : kv = (key x, x) := by simpa using h
        subst hkvx
        intro he
        have he2 : key x = key y := he
        exact hnd1 (he2 ▸ List.mem_map_of_mem key hy)

theorem jsMapOf_eq {α : Type} (key : α → String) (l : List α)
    (h : (l.map key).Nodup) :
    jsMapOf key l = l.map (fun x => (key x, x)) := by
  unfold jsMapOf
  simpa using jsMapOf_loop key l [] h (by simp)

theorem jsGet_map_pair {α : Type} (key : α → String) (l : List α) (k : String) :
    jsGet (l.map (fun x => (key x, x))) k =
      l.find? (fun x => decide (key x = k)) := by
  induction l with
  | nil => rfl
  | cons x xs ih =>
    simp only [List.map_cons, jsGet, List.find?_cons]
    by_cases h : key x = k
    · simp [decide_eq_true h]
    · simp only [decide_eq_false h]
      simpa [jsGet] using ih

theorem find?_key_eq_some_iff {α : Type} {key : α → String} {l : List α}
    {k : String} {x : α} (h : (l.map key).Nodup) :
    l.find? (fun y => decide (key y = k)) = some x ↔ (x ∈ l ∧ key x = k) := by
  induction l with
  | nil => simp
  | cons y ys ih =>
    rw [List.map_cons] at h
    obtain ⟨h1, h2⟩ := List.nodup_cons.mp h
    rw [List.find?_cons]
    by_cases hy : key y = k
    · simp only [decide_eq_true hy]
      constructor
      · intro he
        obtain rfl : y = x := by simpa using he
        exact ⟨by simp, hy⟩
      · rintro ⟨hmem, hkey⟩
        rcases List.mem_cons.mp hmem with rfl | hmem2
        · rfl
        · exact absurd (hy ▸ hkey ▸ List.mem_map_of_mem key hmem2) h1
    · simp only [decide_eq_false hy]
      rw [ih h2]
      constructor
      · rintro ⟨hmem, hkey⟩; exact ⟨List.mem_cons.mpr (Or.inr hmem), hkey⟩
      · rintro ⟨hmem, hkey⟩
        rcases List.mem_cons.mp hmem with rfl | hmem2
        · exact absurd hkey hy
        · exact ⟨hmem2, hkey⟩

theorem find?_key_eq_none_iff {α : Type} {key : α → String} {l : List α}
    {k : String} :
    l.find? (fun y => decide (key y = k)) = none ↔ k ∉ l.map key := by
  rw [List.find?_eq_none]
  constructor
  · intro h hmem
    rcases List.mem_map.mp hmem with ⟨x, hx, hkx⟩
    exact h x hx (by simp [hkx])
  · intro h x hx
    simp only [decide_eq_true_eq]
    intro hkx
    exact h (hkx ▸ List.mem_map_of_mem key hx)

/-! ## Lemmas on the per-path diff loop (C1, C2) -/

theorem collectDiffs_success {f : String → Option (Option FileDiff)}
    {l : List String} {ds : List FileDiff} (h : collectDiffs f l = some ds) :
    ∀ p ∈ l, ∃ o, f p = some o := by
  induction l generalizing ds with
  | nil => intro p hp; exact absurd hp (by simp)
  | cons q qs ih =>
    intro p hp
    rw [collectDiffs] at h
    cases hf : f q with
    | none => rw [hf] at h; exact absurd h (by simp)
    | some o =>
      rw [hf] at h
      rcases List.mem_cons.mp hp with rfl | hp2
      · exact ⟨o, hf⟩
      · cases o with
        | none => exact ih h p hp2
        | some d =>
          cases hrec : collectDiffs f qs with
          | none => rw [hrec] at h; exact absurd h (by simp)
          | some ds2 => exact ih hrec p hp2

theorem collectDiffs_mem {f : String → Option (Option FileDiff)}
    {l : List String} {ds : List FileDiff} (h : collectDiffs f l = some ds)
    {d : FileDiff} : d ∈ ds ↔ ∃ p ∈ l, f p = some (some d) := by
  induction l generalizing ds with
  | nil =>
    obtain rfl : ds = [] := by simpa [collectDiffs] using h.symm
    simp
  | cons q qs ih =>
    rw [collectDiffs] at h
    cases hf : f q with
    | none => rw [hf] at h; exact absurd h (by simp)
    | some o =>
      rw [hf] at h
      cases o with
      | none =>
        rw [ih h]
        constructor
        · rintro ⟨p, hp, hfp⟩
          exact ⟨p, List.mem_cons.mpr (Or.inr hp), hfp⟩
        · rintro ⟨p, hp, hfp⟩
          rcases List.mem_cons.mp hp with rfl | hp2
          · rw [hf] at hfp; exact absurd hfp (by simp)
          · exact ⟨p, hp2, hfp⟩
      | some d2 =>
        cases hrec : collectDiffs f qs with
        | none => rw [hrec] at h; exact absurd h (by simp)
        | some ds2 =>
          rw [hrec] at h
          obtain rfl : d2 :: ds2 = ds := by simpa using h
          rw [List.mem_cons, ih hrec]
          constructor
          · rintro (rfl | ⟨p, hp, hfp⟩)
            · exact ⟨q, List.mem_cons_self q qs, hf⟩
            · exact ⟨p, List.mem_cons.mpr (Or.inr hp), hfp⟩
          · rintro ⟨p, hp, hfp⟩
            rcases List.mem_cons.mp hp with rfl | hp2
            · rw [hf] at hfp
              have hdd : d2 = d := by simpa using hfp
              exact Or.inl hdd.symm
            · exact Or.inr ⟨p, hp2, hfp⟩

theorem collectDiffs_paths {f : String → Option (Option FileDiff)}
    {l : List String} {ds : List FileDiff} (h : collectDiffs f l = some ds)
    (hk : ∀ p d, f p = some (some d) → d.path = p) :
    (ds.map (fun d => d.path)).Sublist l := by
  induction l generalizing ds with
  | nil =>
    obtain rfl : ds = [] := by simpa [collectDiffs] using h.symm
    simp
  | cons q qs ih =>
    rw [collectDiffs] at h
    cases hf : f q with
    | none => rw [hf] at h; exact absurd h (by simp)
    | some o =>
      rw [hf] at h
      cases o with
      | none => exact (ih h).cons q
      | some d2 =>
        cases hrec : collectDiffs f qs with
        | none => rw [hrec] at h; exact absurd h (by simp)
        | some ds2 =>
          rw [hrec] at h
          obtain rfl : d2 :: ds2 = ds := by simpa using h
          rw [List.map_cons, hk q d2 hf]
          exact (ih hrec).cons₂ q

theorem entryFor_path_status {bm tm : List (String × SolutionFile)}
    {bcs tcs : List LogicalComponent} {p : String} {d : FileDiff}
    (h : entryFor bm tm bcs tcs p = some (some d)) :
    d.path = p ∧ d.status = diffStatusOf (jsGet bm p) (jsGet tm p) ∧
      diffStatusOf (jsGet bm p) (jsGet tm p) ≠ .unchanged ∧
      logicalDiffOf (findOwner bcs p) (findOwner tcs p) = some d.logicalDiff := by
  unfold entryFor at h
  by_cases hs : diffStatusOf (jsGet bm p) (jsGet tm p) = .unchanged
  · rw [if_pos hs] at h
    exact absurd h (by simp)
  · rw [if_neg hs] at h
    cases hld : logicalDiffOf (findOwner bcs p) (findOwner tcs p) with
    | none => rw [hld] at h; exact absurd h (by simp)
    | some ld =>
      rw [hld] at h
      obtain rfl : mkFileDiff p (diffStatusOf (jsGet bm p) (jsGet tm p))
          (jsGet bm p) (jsGet tm p) ld = d := by simpa using h
      refine ⟨rfl, rfl, hs, ?_⟩
      rfl

theorem entryFor_produces {bm tm : List (String × SolutionFile)}
    {bcs tcs : List LogicalComponent} {p : String} {o : Option FileDiff}
    (h : entryFor bm tm bcs tcs p = some o)
    (hs : diffStatusOf (jsGet bm p) (jsGet tm p) ≠ .unchanged) :
    ∃ d, o = some d ∧ d.path = p ∧
      d.status = diffStatusOf (jsGet bm p) (jsGet tm p) := by
  unfold entryFor at h
  rw [if_neg hs] at h
  cases hld : logicalDiffOf (findOwner bcs p) (findOwner tcs p) with
  | none => rw [hld] at h; exact absurd h (by simp)
  | some ld =>
    rw [hld] at h
    obtain rfl : some (mkFileDiff p (diffStatusOf (jsGet bm p) (jsGet tm p))
        (jsGet bm p) (jsGet tm p) ld) = o := by simpa using h
    exact ⟨_, rfl, rfl, rfl⟩

theorem logicalDiffOf_role {b t : LogicalComponent}
    {ops nps : List Privilege}
    (hb : b.type = .SecurityRole) (ht : t.type = .SecurityRole)
    (hbm : b.metadata = some (.role ops)) (htm : t.metadata = some (.role nps)) :
    logicalDiffOf (some b) (some t) =
      some (some (.role (roleLogicalDiff ops nps))) := by
  simp only [logicalDiffOf]
  rw [hb, ht, hbm, htm]
  simp [rolePrivsOf]

theorem solutionFileDiffs_unpack {baseFiles targetFiles : List SolutionFile}
    {bcs tcs : List LogicalComponent} {ds : List FileDiff}
    (h : solutionFileDiffs baseFiles targetFiles bcs tcs = some ds) :
    ∃ l, collectDiffs
        (entryFor (jsMapOf (fun f => f.path) baseFiles)
          (jsMapOf (fun f => f.path) targetFiles) bcs tcs)
        (allPathsOf (jsMapOf (fun f => f.path) baseFiles)
          (jsMapOf (fun f => f.path) targetFiles)) = some l ∧
      ds = List.insertionSort (fun a b => strLe a.path b.path = true) l := by
  simp only [solutionFileDiffs] at h
  cases hcol : collectDiffs
      (entryFor (jsMapOf (fun f => f.path) baseFiles)
        (jsMapOf (fun f => f.path) targetFiles) bcs tcs)
      (allPathsOf (jsMapOf (fun f => f.path) baseFiles)
        (jsMapOf (fun f => f.path) targetFiles)) with
  | none => rw [hcol] at h; exact absurd h (by simp)
  | some l =>
    rw [hcol] at h
    exact ⟨l, rfl, by simpa using h.symm⟩

theorem fileDiff_isTotal :
    IsTotal FileDiff (fun a b => strLe a.path b.path = true) :=
  ⟨fun a b => strLe_total a.path b.path⟩

theorem fileDiff_isTrans :
    IsTrans FileDiff (fun a b => strLe a.path b.path = true) :=
  ⟨fun _ _ _ h1 h2 => strLe_trans h1 h2⟩

theorem diffStatusOf_eq_added {b t : Option SolutionFile} :
    diffStatusOf b t = .added ↔ (b = none ∧ t ≠ none) := by
  cases b <;> cases t <;> simp [diffStatusOf]
  split_ifs <;> simp

theorem diffStatusOf_eq_removed {b t : Option SolutionFile} :
    diffStatusOf b t = .removed ↔ (b ≠ none ∧ t = none) := by
  cases b <;> cases t <;> simp [diffStatusOf]
  split_ifs <;> simp

theorem diffStatusOf_eq_modified {b t : Option SolutionFile} :
    diffStatusOf b t = .modified ↔
      (∃ bf tf, b = some bf ∧ t = some tf ∧ bf.content ≠ tf.content) := by
  cases b with
  | none => cases t <;> simp [diffStatusOf]
  | some bf =>
    cases t with
    | none => simp [diffStatusOf]
    | some tf =>
      simp only [diffStatusOf]
      split_ifs with hc <;> simp [hc]

/-- C1: on path-deduplicated inputs (as every ingested bundle is), when the
diff run completes, each path in the union of both file sets appears as an
`added` diff exactly when only the target has it, as a `removed` diff
exactly when only the base has it, and as a `modified` diff exactly when
both have it with different contents; unchanged paths are omitted; each
path on exactly one side yields exactly one diff; and the resulting list
is sorted ascending by path. -/
theorem C1_file_diff_classification :
    ∀ (baseFiles targetFiles : List SolutionFile)
      (bcs tcs : List LogicalComponent) (ds : List FileDiff),
      (baseFiles.map (fun f => f.path)).Nodup →
      (targetFiles.map (fun f => f.path)).Nodup →
      solutionFileDiffs baseFiles targetFiles bcs tcs = some ds →
      (∀ p : String,
        ((∃ d ∈ ds, d.path = p ∧ d.status = .added) ↔
          (p ∉ baseFiles.map (fun f => f.path) ∧
           p ∈ targetFiles.map (fun f => f.path))) ∧
        ((∃ d ∈ ds, d.path = p ∧ d.status = .removed) ↔
          (p ∈ baseFiles.map (fun f => f.path) ∧
           p ∉ targetFiles.map (fun f => f.path))) ∧
        ((∃ d ∈ ds, d.path = p ∧ d.status = .modified) ↔
          (∃ bf ∈ baseFiles, ∃ tf ∈ targetFiles,
            bf.path = p ∧ tf.path = p ∧ bf.content ≠ tf.content)) ∧
        (((p ∈ baseFiles.map (fun f => f.path) ∧
           p ∉ targetFiles.map (fun f => f.path)) ∨
          (p ∉ baseFiles.map (fun f => f.path) ∧
           p ∈ targetFiles.map (fun f => f.path))) →
          ds.countP (fun d => decide (d.path = p)) = 1)) ∧
      (∀ d ∈ ds, d.status ≠ .unchanged) ∧
      (ds.map (fun d => d.path)).Nodup ∧
      List.Sorted (fun a b => strLe a.path b.path = true) ds := by
  intro baseFiles targetFiles bcs tcs ds hb ht h
  obtain ⟨l, hcol, hds⟩ := solutionFileDiffs_unpack h
  have hbm : jsMapOf (fun f : SolutionFile => f.path) baseFiles =
      baseFiles.map (fun x => (x.path, x)) := jsMapOf_eq _ _ hb
  have htm : jsMapOf (fun f : SolutionFile => f.path) targetFiles =
      targetFiles.map (fun x => (x.path, x)) := jsMapOf_eq _ _ ht
  have hgetb : ∀ p, jsGet (jsMapOf (fun f : SolutionFile => f.path) baseFiles) p =
      baseFiles.find? (fun f => decide (f.path = p)) := by
    intro p; rw [hbm]; exact jsGet_map_pair _ _ _
  have hgett : ∀ p, jsGet (jsMapOf (fun f : SolutionFile => f.path) targetFiles) p =
      targetFiles.find? (fun f => decide (f.path = p)) := by
    intro p; rw [htm]; exact jsGet_map_pair _ _ _
  have hallp : ∀ p, p ∈ allPathsOf (jsMapOf (fun f : SolutionFile => f.path) baseFiles)
      (jsMapOf (fun f : SolutionFile => f.path) targetFiles) ↔
      (p ∈ baseFiles.map (fun f => f.path) ∨ p ∈ targetFiles.map (fun f => f.path)) := by
    intro p
    unfold allPathsOf
    rw [mem_jsSetUnion, hbm, htm]
    simp
  have hperm : ds.Perm l := by
    rw [hds]; exact List.perm_insertionSort _ l
  have hmem : ∀ d : FileDiff, d ∈ ds ↔
      ∃ p ∈ allPathsOf (jsMapOf (fun f : SolutionFile => f.path) baseFiles)
        (jsMapOf (fun f : SolutionFile => f.path) targetFiles),
        entryFor (jsMapOf (fun f : SolutionFile => f.path) baseFiles)
          (jsMapOf (fun f : SolutionFile => f.path) targetFiles) bcs tcs p =
          some (some d) := by
    intro d
    rw [hperm.mem_iff]
    exact collectDiffs_mem hcol
  -- the three status characterizations, one direction at a time
  have hstat : ∀ (p : String) (st : DiffStatus), st ≠ .unchanged →
      ((∃ d ∈ ds, d.path = p ∧ d.status = st) ↔
        (p ∈ baseFiles.map (fun f => f.path) ∨
         p ∈ targetFiles.map (fun f => f.path)) ∧
        diffStatusOf (baseFiles.find? (fun f => decide (f.path = p)))
          (targetFiles.find? (fun f => decide (f.path = p))) = st) := by
    intro p st hst
    constructor
    · rintro ⟨d, hd, rfl, rfl⟩
      rcases (hmem d).mp hd with ⟨q, hq, he⟩
      obtain ⟨hpath, hstatus, hne, -⟩ := entryFor_path_status he
      subst hpath
      rw [hgetb, hgett] at hstatus
      exact ⟨(hallp d.path).mp hq, hstatus.symm⟩
    · rintro ⟨hpq, hstatus⟩
      have hq := (hallp p).mpr hpq
      rcases collectDiffs_success hcol p hq with ⟨o, ho⟩
      have hne : diffStatusOf
          (jsGet (jsMapOf (fun f : SolutionFile => f.path) baseFiles) p)
          (jsGet (jsMapOf (fun f : SolutionFile => f.path) targetFiles) p) ≠
          .unchanged := by
        rw [hgetb, hgett, hstatus]; exact hst
      rcases entryFor_produces ho hne with ⟨d, rfl, hdp, hdst⟩
      refine ⟨d, (hmem d).mpr ⟨p, hq, ho⟩, hdp, ?_⟩
      rw [hdst, hgetb, hgett, hstatus]
  refine ⟨?_, ?_, ?_, ?_⟩
  · intro p
    have hNodupPaths : (ds.map (fun d => d.path)).Nodup := by
      have hsub := collectDiffs_paths hcol
        (fun q d he => (entryFor_path_status he).1)
      have hln : ((allPathsOf (jsMapOf (fun f : SolutionFile => f.path) baseFiles)
          (jsMapOf (fun f : SolutionFile => f.path) targetFiles))).Nodup :=
        nodup_jsSetDedup _
      exact ((hperm.map (fun d => d.path)).nodup_iff).mpr (hsub.nodup hln)
    refine ⟨?_, ?_, ?_, ?_⟩
    · rw [hstat p .added (by simp)]
      constructor
      · rintro ⟨-, hstatus⟩
        rw [diffStatusOf_eq_added] at hstatus
        obtain ⟨hbnone, htsome⟩ := hstatus
        rw [find?_key_eq_none_iff] at hbnone
        refine ⟨hbnone, ?_⟩
        cases htf : targetFiles.find? (fun f => decide (f.path = p)) with
        | none => exact absurd htf htsome
        | some tf =>
          have := List.find?_some htf
          simp only [decide_eq_true_eq] at this
          exact this ▸ List.mem_map_of_mem _ (List.mem_of_find?_eq_some htf)
      · rintro ⟨hnb, hint⟩
        rcases List.mem_map.mp hint with ⟨tf, htf, rfl⟩
        refine ⟨Or.inr (List.mem_map_of_mem _ htf), ?_⟩
        rw [diffStatusOf_eq_added]
        refine ⟨find?_key_eq_none_iff.mpr hnb, ?_⟩
        rw [(find?_key_eq_some_iff ht).mpr ⟨htf, rfl⟩]
        simp
    · rw [hstat p .removed (by simp)]
      constructor
      · rintro ⟨-, hstatus⟩
        rw [diffStatusOf_eq_removed] at hstatus
        obtain ⟨hbsome, htnone⟩ := hstatus
        rw [find?_key_eq_none_iff] at htnone
        refine ⟨?_, htnone⟩
        cases hbf : baseFiles.find? (fun f => decide (f.path = p)) with
        | none => exact absurd hbf hbsome
        | some bf =>
          have := List.find?_some hbf
          simp only [decide_eq_true_eq] at this
          exact this ▸ List.mem_map_of_mem _ (List.mem_of_find?_eq_some hbf)
      · rintro ⟨hinb, hnt⟩
        rcases List.mem_map.mp hinb with ⟨bf, hbf, rfl⟩
        refine ⟨Or.inl (List.mem_map_of_mem _ hbf), ?_⟩
        rw [diffStatusOf_eq_removed]
        refine ⟨?_, find?_key_eq_none_iff.mpr hnt⟩
        rw [(find?_key_eq_some_iff hb).mpr ⟨hbf, rfl⟩]
        simp
    · rw [hstat p .modified (by simp)]
      constructor
      · rintro ⟨-, hstatus⟩
        rw [diffStatusOf_eq_modified] at hstatus
        obtain ⟨bf, tf, hbf, htf, hcne⟩ := hstatus
        have hbmem := (find?_key_eq_some_iff hb).mp hbf
        have htmem := (find?_key_eq_some_iff ht).mp htf
        exact ⟨bf, hbmem.1, tf, htmem.1, hbmem.2, htmem.2, hcne⟩
      · rintro ⟨bf, hbf, tf, htf, hbp, htp, hcne⟩
        refine ⟨Or.inl (hbp ▸ List.mem_map_of_mem _ hbf), ?_⟩
        rw [diffStatusOf_eq_modified]
        exact ⟨bf, tf, (find?_key_eq_some_iff hb).mpr ⟨hbf, hbp⟩,
          (find?_key_eq_some_iff ht).mpr ⟨htf, htp⟩, hcne⟩
    · intro hone
      have hex : ∃ d ∈ ds, d.path = p := by
        rcases hone with ⟨hinb, hnt⟩ | ⟨hnb, hint⟩
        · rcases (by
              rw [hstat p .removed (by simp)]
              refine ⟨Or.inl hinb, ?_⟩
              rcases List.mem_map.mp hinb with ⟨bf, hbf, rfl⟩
              rw [diffStatusOf_eq_removed]
              refine ⟨?_, find?_key_eq_none_iff.mpr hnt⟩
              rw [(find?_key_eq_some_iff hb).mpr ⟨hbf, rfl⟩]
              simp :
            ∃ d ∈ ds, d.path = p ∧ d.status = .removed) with ⟨d, hd, hdp, -⟩
          exact ⟨d, hd, hdp⟩
        · rcases (by
              rw [hstat p .added (by simp)]
              refine ⟨Or.inr hint, ?_⟩
              rcases List.mem_map.mp hint with ⟨tf, htf, rfl⟩
              rw [diffStatusOf_eq_added]
              refine ⟨find?_key_eq_none_iff.mpr hnb, ?_⟩
              rw [(find?_key_eq_some_iff ht).mpr ⟨htf, rfl⟩]
              simp :
            ∃ d ∈ ds, d.path = p ∧ d.status = .added) with ⟨d, hd, hdp, -⟩
          exact ⟨d, hd, hdp⟩
      exact countP_key_eq_one hNodupPaths hex
  · intro d hd
    rcases (hmem d).mp hd with ⟨q, hq, he⟩
    obtain ⟨hpath, hstatus, hne, -⟩ := entryFor_path_status he
    rw [hstatus]
    exact hne
  · have hsub := collectDiffs_paths hcol
      (fun q d he => (entryFor_path_status he).1)
    exact ((hperm.map (fun d => d.path)).nodup_iff).mpr
      (hsub.nodup (nodup_jsSetDedup _))
  · rw [hds]
    haveI := fileDiff_isTotal
    haveI := fileDiff_isTrans
    exact List.sorted_insertionSort _ l

/-- Witness for C1 at a concrete two-sided bundle pair. -/
theorem C1_witness :
    List.Sorted (fun a b => strLe a.path b.path = true)
      ([⟨"a.x", "a.x", .modified, some "1", some "2", .other, none⟩,
        ⟨"b.x", "b.x", .removed, some "k", none, .other, none⟩,
        ⟨"c.x", "c.x", .added, none, some "y", .other, none⟩] : List FileDiff) :=
  (C1_file_diff_classification
    [⟨"a.x", "a.x", "1", .other⟩, ⟨"b.x", "b.x", "k", .other⟩]
    [⟨"a.x", "a.x", "2", .other⟩, ⟨"c.x", "c.x", "y", .other⟩]
    [] []
    [⟨"a.x", "a.x", .modified, some "1", some "2", .other, none⟩,
     ⟨"b.x", "b.x", .removed, some "k", none, .other, none⟩,
     ⟨"c.x", "c.x", .added, none, some "y", .other, none⟩]
    (by decide) (by decide) (by decide)).2.2.2

/-- C2: the security-role logical diff lists exactly the target privileges
whose name is absent from the base as `added`, the base privileges whose
name is absent from the target as `removed`, and, as `modified`, the names
present on both sides whose level or depth differs, pairing old and new
records; the diff engine attaches exactly this diff whenever both owning
components of a changed path are security roles with role metadata; and
the concrete base `{Read: Local}` versus target `{Read: Global,
Write: Basic}` yields added `[Write]`, removed `[]`, and modified
`[{name: Read, old: Local, new: Global}]`. -/
theorem C2_security_role_diff :
    (∀ (ops nps : List Privilege),
      (∀ p : Privilege, p ∈ (roleLogicalDiff ops nps).added ↔
        (p ∈ nps ∧ ∀ q ∈ ops, q.name ≠ p.name)) ∧
      (∀ p : Privilege, p ∈ (roleLogicalDiff ops nps).removed ↔
        (p ∈ ops ∧ ∀ q ∈ nps, q.name ≠ p.name)) ∧
      ((ops.map (fun q => q.name)).Nodup →
        ∀ m : ModifiedPriv, m ∈ (roleLogicalDiff ops nps).modified ↔
          ∃ np ∈ nps, ∃ op ∈ ops, op.name = np.name ∧
            (op.level ≠ np.level ∨ op.depth ≠ np.depth) ∧
            m = ⟨np.name, some op, np⟩)) ∧
    (∀ (baseFiles targetFiles : List SolutionFile)
        (bcs tcs : List LogicalComponent) (ds : List FileDiff),
      solutionFileDiffs baseFiles targetFiles bcs tcs = some ds →
      ∀ d ∈ ds, ∀ (b t : LogicalComponent) (ops nps : List Privilege),
        findOwner bcs d.path = some b → findOwner tcs d.path = some t →
        b.type = .SecurityRole → t.type = .SecurityRole →
        b.metadata = some (.role ops) → t.metadata = some (.role nps) →
        d.logicalDiff = some (.role (roleLogicalDiff ops nps))) ∧
    (roleLogicalDiff
        [⟨"p1", "Read", "Local", none, none, none⟩]
        [⟨"p2", "Read", "Global", none, none, none⟩,
         ⟨"p3", "Write", "Basic", none, none, none⟩] =
      { added := [⟨"p3", "Write", "Basic", none, none, none⟩]
        removed := []
        modified := [⟨"Read", some ⟨"p1", "Read", "Local", none, none, none⟩,
                      ⟨"p2", "Read", "Global", none, none, none⟩⟩] }) := by
  refine ⟨?_, ?_, by decide⟩
  · intro ops nps
    refine ⟨?_, ?_, ?_⟩
    · intro p
      show p ∈ nps.filter _ ↔ _
      rw [List.mem_filter]
      constructor
      · rintro ⟨h1, h2⟩
        refine ⟨h1, ?_⟩
        intro q hq he
        rw [Bool.not_eq_true', List.any_eq_false] at h2
        exact absurd (by simpa using he) (h2 q hq)
      · rintro ⟨h1, h2⟩
        refine ⟨h1, ?_⟩
        rw [Bool.not_eq_true', List.any_eq_false]
        intro q hq
        simpa using h2 q hq
    · intro p
      show p ∈ ops.filter _ ↔ _
      rw [List.mem_filter]
      constructor
      · rintro ⟨h1, h2⟩
        refine ⟨h1, ?_⟩
        intro q hq he
        rw [Bool.not_eq_true', List.any_eq_false] at h2
        exact absurd (by simpa using he) (h2 q hq)
      · rintro ⟨h1, h2⟩
        refine ⟨h1, ?_⟩
        rw [Bool.not_eq_true', List.any_eq_false]
        intro q hq
        simpa using h2 q hq
    · intro hn m
      show m ∈ (List.filter _ nps).map _ ↔ _
      rw [List.mem_map]
      constructor
      · rintro ⟨np, hnp, rfl⟩
        obtain ⟨hmem, hpred⟩ := List.mem_filter.mp hnp
        cases hfind : ops.find? (fun o => decide (o.name = np.name)) with
        | none => rw [hfind] at hpred; exact absurd hpred (by simp)
        | some op =>
          rw [hfind] at hpred
          have hop := List.mem_of_find?_eq_some hfind
          have hopname : op.name = np.name := by
            simpa using List.find?_some hfind
          refine ⟨np, hmem, op, hop, hopname, ?_, rfl⟩
          simpa using hpred
      · rintro ⟨np, hnp, op, hop, hname, hdiff, rfl⟩
        have hfind : ops.find? (fun o => decide (o.name = np.name)) = some op :=
          (find?_key_eq_some_iff hn).mpr ⟨hop, hname⟩
        refine ⟨np, List.mem_filter.mpr ⟨hnp, ?_⟩, ?_⟩
        · rw [hfind]
          simpa using hdiff
        · rw [hfind]
  · intro baseFiles targetFiles bcs tcs ds h d hd b t ops nps hob hot htyb htyt hmb hmt
    obtain ⟨l, hcol, hds⟩ := solutionFileDiffs_unpack h
    have hdl : d ∈ l := by
      have : ds.Perm l := by rw [hds]; exact List.perm_insertionSort _ l
      exact this.mem_iff.mp hd
    rcases (collectDiffs_mem hcol).mp hdl with ⟨p, hp, he⟩
    obtain ⟨hpath, -, -, hld⟩ := entryFor_path_status he
    subst hpath
    rw [hob, hot, logicalDiffOf_role htyb htyt hmb hmt] at hld
    exact (Option.some.inj hld).symm

/-- Witness for C2 at a concrete changed file owned by a security role on
both sides. -/
theorem C2_witness :
    (⟨"r.xml", "r.xml", .modified, some "1", some "2", .xml,
      some (.role (roleLogicalDiff
        [⟨"p1", "Read", "Local", none, none, none⟩]
        [⟨"p2", "Read", "Global", none, none, none⟩,
         ⟨"p3", "Write", "Basic", none, none, none⟩]))⟩ : FileDiff).logicalDiff =
      some (.role (roleLogicalDiff
        [⟨"p1", "Read", "Local", none, none, none⟩]
        [⟨"p2", "Read", "Global", none, none, none⟩,
         ⟨"p3", "Write", "Basic", none, none, none⟩])) :=
  C2_security_role_diff.2.1
    [⟨"r.xml", "r.xml", "1", .xml⟩] [⟨"r.xml", "r.xml", "2", .xml⟩]
    [⟨"R1", "Role", "Role", .SecurityRole, none, ["r.xml"],
      some (.role [⟨"p1", "Read", "Local", none, none, none⟩])⟩]
    [⟨"R1", "Role", "Role", .SecurityRole, none, ["r.xml"],
      some (.role [⟨"p2", "Read", "Global", none, none, none⟩,
                   ⟨"p3", "Write", "Basic", none, none, none⟩])⟩]
    [⟨"r.xml", "r.xml", .modified, some "1", some "2", .xml,
      some (.role (roleLogicalDiff
        [⟨"p1", "Read", "Local", none, none, none⟩]
        [⟨"p2", "Read", "Global", none, none, none⟩,
         ⟨"p3", "Write", "Basic", none, none, none⟩]))⟩]
    (by decide)
    ⟨"r.xml", "r.xml", .modified, some "1", some "2", .xml,
      some (.role (roleLogicalDiff
        [⟨"p1", "Read", "Local", none, none, none⟩]
        [⟨"p2", "Read", "Global", none, none, none⟩,
         ⟨"p3", "Write", "Basic", none, none, none⟩]))⟩
    (by decide)
    ⟨"R1", "Role", "Role", .SecurityRole, none, ["r.xml"],
      some (.role [⟨"p1", "Read", "Local", none, none, none⟩])⟩
    ⟨"R1", "Role", "Role", .SecurityRole, none, ["r.xml"],
      some (.role [⟨"p2", "Read", "Global", none, none, none⟩,
                   ⟨"p3", "Write", "Basic", none, none, none⟩])⟩
    [⟨"p1", "Read", "Local", none, none, none⟩]
    [⟨"p2", "Read", "Global", none, none, none⟩,
     ⟨"p3", "Write", "Basic", none, none, none⟩]
    (by decide) (by decide) rfl rfl rfl rfl

end PPSI
